import Mathlib

/-!
Verification development for the order-intake backend in `src/main.py`.

The embedding models the FastAPI handlers over an explicit database state:
* `Restaurant` / `Order` mirror the two SQLModel tables (the unrelated
  `JsLog` table carries no invariants and is out of scope).
* Request payloads arrive as parsed JSON, modelled by the value type `Jv`.
* `json.dumps(..., ensure_ascii=False)` / `json.loads` are modelled by
  `dumps` / `loads` below (JSON numbers are modelled as integers; float
  literals are outside the model, no operation computes with them).
* Timestamps (`datetime.utcnow()`) are modelled as naturals supplied by the
  caller; ISO-8601 formatting is presentation and not modelled.
* SQLite autoincrement primary keys are modelled by `nextRestaurantId` /
  `nextOrderId` counters (rows are never deleted, so this matches `max+1`).
-/

/-- A JSON value as produced by parsing a request body (Python `dict`/`list`/
`str`/`int`/`bool`/`None`; non-integer numerics are outside the model). -/
inductive Jv : Type where
| null : Jv
| bool (b : Bool) : Jv
| num (n : Int) : Jv
| str (s : String) : Jv
| arr (elems : List Jv) : Jv
| obj (fields : List (String × Jv)) : Jv

/-- Hex digit character for `n < 16`, as used by Python's `\u00XX` escapes
(lower-case, matching CPython's json encoder). -/
def hexChar (n : Nat) : Char :=
  if n < 10 then Char.ofNat (48 + n) else Char.ofNat (97 + (n - 10))

/-- Escape of one character inside a JSON string literal, following CPython's
`json.dumps` with `ensure_ascii=False`: only `"`, `\` and control characters
are escaped (`\b \t \n \f \r` short forms, `\u00XX` otherwise). -/
def escChar (c : Char) : List Char :=
  if c = '"' then ['\\', '"']
  else if c = '\\' then ['\\', '\\']
  else if c = Char.ofNat 8 then ['\\', 'b']
  else if c = Char.ofNat 9 then ['\\', 't']
  else if c = Char.ofNat 10 then ['\\', 'n']
  else if c = Char.ofNat 12 then ['\\', 'f']
  else if c = Char.ofNat 13 then ['\\', 'r']
  else if c.toNat < 32 then
    ['\\', 'u', '0', '0', hexChar (c.toNat / 16), hexChar (c.toNat % 16)]
  else [c]

/-- Decimal digits of a natural number, most significant first (fuelled so
the recursion is structural and evaluates definitionally; `n + 1` units of
fuel always suffice). -/
def natDigitsAux : Nat → Nat → List Char
| 0, _ => []
| fuel + 1, n =>
  if n < 10 then [Char.ofNat (48 + n)]
  else natDigitsAux fuel (n / 10) ++ [Char.ofNat (48 + n % 10)]

/-- Decimal digits of a natural number, most significant first. -/
def natDigits (n : Nat) : List Char := natDigitsAux (n + 1) n

/-- Decimal rendering of an integer (Python `repr` of an `int`). -/
def intChars (n : Int) : List Char :=
  if n < 0 then '-' :: natDigits n.natAbs else natDigits n.natAbs

/-- Serialized form of a JSON string literal (quotes plus escaped body). -/
def strChars (s : String) : List Char :=
  '"' :: (s.data.flatMap escChar) ++ ['"']

mutual
/-- Model of `json.dumps(v, ensure_ascii=False)` with CPython's default
separators (`", "` between items, `": "` after keys), as a character list. -/
def dumpChars : Jv → List Char
| Jv.null => ['n', 'u', 'l', 'l']
| Jv.bool true => ['t', 'r', 'u', 'e']
| Jv.bool false => ['f', 'a', 'l', 's', 'e']
| Jv.num n => intChars n
| Jv.str s => strChars s
| Jv.arr es => '[' :: dumpArr es ++ [']']
| Jv.obj fs => Char.ofNat 123 :: dumpObj fs ++ [Char.ofNat 125]

/-- Comma-separated serializations of array elements. -/
def dumpArr : List Jv → List Char
| [] => []
| [v] => dumpChars v
| v :: v' :: vs => dumpChars v ++ ',' :: ' ' :: dumpArr (v' :: vs)

/-- Comma-separated serializations of object fields. -/
def dumpObj : List (String × Jv) → List Char
| [] => []
| [(k, v)] => strChars k ++ ':' :: ' ' :: dumpChars v
| (k, v) :: f :: fs =>
    strChars k ++ ':' :: ' ' :: dumpChars v ++ ',' :: ' ' :: dumpObj (f :: fs)
end

/-- Model of `json.dumps(v, ensure_ascii=False)` as a `String` (what
`create_order` stores into `Order.items_json`). -/
def dumps (v : Jv) : String := String.mk (dumpChars v)

/-- Whitespace characters accepted by `json.loads` between JSON tokens. -/
def isWs (c : Char) : Bool :=
  c = ' ' || c = Char.ofNat 9 || c = Char.ofNat 10 || c = Char.ofNat 13

/-- Drops leading JSON whitespace. -/
def skipWs : List Char → List Char
| [] => []
| c :: cs => if isWs c then skipWs cs else c :: cs

/-- Numeric value of a decimal digit character. -/
def digitVal (c : Char) : Nat := c.toNat - 48

/-- Value of a nonempty run of decimal digit characters. -/
def digitsVal (ds : List Char) : Nat :=
  ds.foldl (fun a c => a * 10 + digitVal c) 0

/-- Parses a maximal nonempty run of decimal digits. -/
def parseNat? (cs : List Char) : Option (Nat × List Char) :=
  let ds := cs.takeWhile Char.isDigit
  if ds.isEmpty then none else some (digitsVal ds, cs.dropWhile Char.isDigit)

/-- Parses an optionally negated decimal integer (the JSON number grammar
restricted to integers; a fractional or exponent tail makes the surrounding
parse fail, consistent with keeping floats outside the model). -/
def parseInt? (cs : List Char) : Option (Int × List Char) :=
  match cs with
  | [] => none
  | c :: cs' =>
    if c = '-' then (parseNat? cs').map fun p => (-(p.1 : Int), p.2)
    else (parseNat? (c :: cs')).map fun p => ((p.1 : Int), p.2)

/-- Numeric value of a hexadecimal digit character, if it is one. -/
def hexVal? (c : Char) : Option Nat :=
  if '0' ≤ c ∧ c ≤ '9' then some (c.toNat - 48)
  else if 'a' ≤ c ∧ c ≤ 'f' then some (c.toNat - 87)
  else if 'A' ≤ c ∧ c ≤ 'F' then some (c.toNat - 55)
  else none

/-- Decodes a single-character JSON string escape (`\"`, `\\`, `\/`, `\b`,
`\f`, `\n`, `\r`, `\t`). -/
def escDecode? (c : Char) : Option Char :=
  if c = '"' then some '"'
  else if c = '\\' then some '\\'
  else if c = '/' then some '/'
  else if c = 'b' then some (Char.ofNat 8)
  else if c = 'f' then some (Char.ofNat 12)
  else if c = 'n' then some (Char.ofNat 10)
  else if c = 'r' then some (Char.ofNat 13)
  else if c = 't' then some (Char.ofNat 9)
  else none

/-- Parses the body of a JSON string literal up to and including the closing
quote, decoding escapes (surrogate-pair recombination is not modelled: it
never occurs in `dumps` output, which only `\u`-escapes control characters). -/
def parseStrBody : List Char → Option (List Char × List Char)
| [] => none
| c :: cs =>
  if c = '"' then some ([], cs)
  else if c = '\\' then
    match cs with
    | [] => none
    | e :: cs' =>
      if e = 'u' then
        match cs' with
        | h1 :: h2 :: h3 :: h4 :: cs'' =>
          match hexVal? h1, hexVal? h2, hexVal? h3, hexVal? h4 with
          | some a, some b, some c3, some d =>
            (parseStrBody cs'').map fun p =>
              (Char.ofNat (((a * 16 + b) * 16 + c3) * 16 + d) :: p.1, p.2)
          | _, _, _, _ => none
        | _ => none
      else
        match escDecode? e with
        | some c' => (parseStrBody cs').map fun p => (c' :: p.1, p.2)
        | none => none
  else (parseStrBody cs).map fun p => (c :: p.1, p.2)

mutual
/-- Model of the JSON value parser underlying `json.loads`, fuelled to make
the recursion structural (fuel is spent once per nesting level). -/
def parseVal : Nat → List Char → Option (Jv × List Char)
| 0, _ => none
| Nat.succ fuel, cs =>
  match skipWs cs with
  | [] => none
  | c :: cs' =>
    if c = 'n' then
      match cs' with
      | 'u' :: 'l' :: 'l' :: r => some (Jv.null, r)
      | _ => none
    else if c = 't' then
      match cs' with
      | 'r' :: 'u' :: 'e' :: r => some (Jv.bool true, r)
      | _ => none
    else if c = 'f' then
      match cs' with
      | 'a' :: 'l' :: 's' :: 'e' :: r => some (Jv.bool false, r)
      | _ => none
    else if c = '"' then
      (parseStrBody cs').map fun p => (Jv.str (String.mk p.1), p.2)
    else if c = '[' then
      match skipWs cs' with
      | [] => none
      | d :: r =>
        if d = ']' then some (Jv.arr [], r)
        else (parseElems fuel (d :: r)).map fun p => (Jv.arr p.1, p.2)
    else if c = Char.ofNat 123 then
      match skipWs cs' with
      | [] => none
      | d :: r =>
        if d = Char.ofNat 125 then some (Jv.obj [], r)
        else (parseFields fuel (d :: r)).map fun p => (Jv.obj p.1, p.2)
    else if c = '-' ∨ c.isDigit then
      (parseInt? (c :: cs')).map fun p => (Jv.num p.1, p.2)
    else none

/-- Parses the elements of a nonempty JSON array after the opening bracket,
consuming the closing bracket. -/
def parseElems : Nat → List Char → Option (List Jv × List Char)
| 0, _ => none
| Nat.succ fuel, cs =>
  match parseVal fuel cs with
  | none => none
  | some (v, r) =>
    match skipWs r with
    | [] => none
    | d :: r' =>
      if d = ']' then some ([v], r')
      else if d = ',' then
        match parseElems fuel r' with
        | none => none
        | some (vs, r'') => some (v :: vs, r'')
      else none

/-- Parses the fields of a nonempty JSON object after the opening brace,
consuming the closing brace. -/
def parseFields : Nat → List Char → Option (List (String × Jv) × List Char)
| 0, _ => none
| Nat.succ fuel, cs =>
  match skipWs cs with
  | [] => none
  | c :: cs' =>
    if c = '"' then
      match parseStrBody cs' with
      | none => none
      | some (k, r) =>
        match skipWs r with
        | [] => none
        | d :: r' =>
          if d = ':' then
            match parseVal fuel r' with
            | none => none
            | some (v, r2) =>
              match skipWs r2 with
              | [] => none
              | e :: r3 =>
                if e = Char.ofNat 125 then some ([(String.mk k, v)], r3)
                else if e = ',' then
                  match parseFields fuel r3 with
                  | none => none
                  | some (fs, r4) => some ((String.mk k, v) :: fs, r4)
                else none
          else none
    else none
end

/-- Model of `json.loads`: parses one JSON value and requires only whitespace
to follow.  The fuel bound suffices for every value the serializer can
produce (`jvFuel_le_length_dumpChars` below). -/
def loads (s : String) : Option Jv :=
  match parseVal (s.data.length + 1) s.data with
  | some (v, rest) => if (skipWs rest).isEmpty then some v else none
  | none => none


/-- Model of Python `str.strip()` with no argument: removes leading and
trailing whitespace (the common ASCII whitespace; Python's wider Unicode
whitespace classes are not modelled). -/
def pyStrip (s : String) : String :=
  String.mk (((s.data.dropWhile Char.isWhitespace).reverse.dropWhile
    Char.isWhitespace).reverse)

/-- Python truthiness of a JSON-decoded value (`if not restaurant_id` in
`create_order`): `None`, `False`, `0`, `""`, `[]` and `{}` are falsy. -/
def jvFalsy : Jv → Bool
| Jv.null => true
| Jv.bool b => !b
| Jv.num n => n == 0
| Jv.str s => s.isEmpty
| Jv.arr es => es.isEmpty
| Jv.obj fs => fs.isEmpty

/-- Value of a string consisting solely of decimal digits, if nonempty. -/
def decNat? (cs : List Char) : Option Nat :=
  if cs.isEmpty then none
  else if cs.all Char.isDigit then some (digitsVal cs) else none

/-- Model of Python `int(s)` on a string: optional surrounding whitespace,
optional sign, decimal digits (digit-group underscores are not modelled). -/
def intStr? (s : String) : Option Int :=
  match (pyStrip s).data with
  | [] => none
  | c :: r =>
    if c = '-' then (decNat? r).map fun n => -(n : Int)
    else if c = '+' then (decNat? r).map fun n => (n : Int)
    else (decNat? (c :: r)).map fun n => (n : Int)

/-- Unsigned decimal literal with an optional fractional part, as an exact
rational. -/
def floatMag? (cs : List Char) : Option Rat :=
  let ip := cs.takeWhile Char.isDigit
  let rest := cs.dropWhile Char.isDigit
  match rest with
  | [] => if ip.isEmpty then none else some ((digitsVal ip : Int) : Rat)
  | c :: r =>
    if c = '.' then
      let fp := r.takeWhile Char.isDigit
      let r' := r.dropWhile Char.isDigit
      if r'.isEmpty && !(ip.isEmpty && fp.isEmpty) then
        some (((digitsVal ip : Int) : Rat) +
          ((digitsVal fp : Int) : Rat) / ((10 : Rat) ^ fp.length))
      else none
    else none

/-- Model of Python `float(s)` on a string: optional surrounding whitespace,
optional sign, decimal magnitude.  The value is modelled as an exact rational
(no operation in scope computes with it); exponent notation, `inf`/`nan` and
digit-group underscores are not modelled. -/
def floatStr? (s : String) : Option Rat :=
  match (pyStrip s).data with
  | [] => none
  | c :: r =>
    if c = '-' then (floatMag? r).map Neg.neg
    else if c = '+' then floatMag? r
    else floatMag? (c :: r)

/-- Model of Python `int(x)` on a JSON-decoded value: accepts `bool`, `int`
and integer-looking strings, rejects everything else. -/
def pyInt? : Jv → Option Int
| Jv.bool b => some (if b then 1 else 0)
| Jv.num n => some n
| Jv.str s => intStr? s
| _ => none

/-- Model of Python `float(x)` on a JSON-decoded value: accepts `bool`, `int`
and numeric strings, rejects everything else. -/
def pyFloat? : Jv → Option Rat
| Jv.bool b => some (if b then 1 else 0)
| Jv.num n => some ((n : Rat))
| Jv.str s => floatStr? s
| _ => none

/-- Row of the `restaurant` table (`created_at` as an abstract timestamp). -/
structure Restaurant where
  id : Nat
  name : String
  token : String
  created_at : Nat
deriving DecidableEq

/-- Row of the `order` table.  `total` is Python's `float(payload["total"])`,
modelled as an exact rational; `items_json` is the serialized items payload
exactly as stored. -/
structure Order where
  id : Nat
  restaurant_id : Int
  table : Option String
  items_json : String
  total : Rat
  created_at : Nat
  printed_at : Option Nat
deriving DecidableEq

/-- One element of a `poll_orders` response (`created_at` ISO rendering is
presentation and kept as the abstract timestamp). -/
structure OrderView where
  id : Nat
  table : Option String
  items : Jv
  total : Rat
  created_at : Nat

/-- Database state: the two in-scope tables plus autoincrement counters
(the `jslog` table carries no invariants and is omitted). -/
structure St where
  restaurants : List Restaurant
  orders : List Order
  nextRestaurantId : Nat
  nextOrderId : Nat
deriving DecidableEq

/-- Error taxonomy of the handlers.  `duplicate` is the branch matching
`"UNIQUE constraint failed"` (reported as "Restaurant name already exists");
`internal` is an unhandled exception (HTTP 500), e.g. `json.loads` failing
inside the poll loop; `storage` is a failing commit inside `poll_orders`. -/
inductive Err : Type where
| invalidInput : Err
| duplicate : Err
| notFound : Err
| storage : Err
| internal : Err
deriving DecidableEq

/-- Request body of `create_order`, as the four fields the handler reads
from the parsed JSON object (`none` means the key is absent). -/
structure Payload where
  restaurant_id : Option Jv
  table : Option String
  items : Option Jv
  total : Option Jv

/-- Insertion step of the stable insertion sort modelling SQL `ORDER BY`. -/
def insertLe (le : α → α → Bool) (x : α) : List α → List α
| [] => [x]
| y :: ys => if le x y then x :: y :: ys else y :: insertLe le x ys

/-- Stable insertion sort modelling SQL `ORDER BY`. -/
def sortBy (le : α → α → Bool) : List α → List α
| [] => []
| x :: xs => insertLe le x (sortBy le xs)

/-- Model of SQL `LIMIT n` under SQLite semantics: a negative limit means no
bound on the number of returned rows. -/
def sqlLimit (l : Int) (xs : List α) : List α :=
  if l < 0 then xs else xs.take l.toNat

/-- Handler `POST /api/restaurants`.  The generated token is passed in as a
parameter (modelling `secrets.token_urlsafe(16)`, an external entropy
source).  Note the schema makes only `token` unique — `name` carries no
uniqueness constraint — so the `"UNIQUE constraint failed"` branch can only
fire on a token collision. -/
def create_restaurant (st : St) (nameField : Option String) (token : String)
    (now : Nat) : Except Err (Restaurant × St) :=
  let name := pyStrip (nameField.getD "")
  if name.isEmpty then Except.error Err.invalidInput
  else if st.restaurants.any (fun r => r.token == token) then
    Except.error Err.duplicate
  else
    let r : Restaurant :=
      { id := st.nextRestaurantId, name := name, token := token
        created_at := now }
    Except.ok (r, { st with restaurants := st.restaurants ++ [r],
                            nextRestaurantId := st.nextRestaurantId + 1 })

/-- Handler `GET /api/restaurants`: all restaurants, newest first. -/
def list_restaurants (st : St) : List Restaurant :=
  sortBy (fun a b => decide (b.created_at ≤ a.created_at)) st.restaurants

/-- Handler `GET /api/restaurants/verify/(token)`: exact token match. -/
def verify_restaurant_token (st : St) (token : String) : Except Err Restaurant :=
  match st.restaurants.find? (fun r => r.token == token) with
  | none => Except.error Err.notFound
  | some r => Except.ok r

/-- Handler `POST /api/orders`.  Validation follows the source: the Python
truthiness check on `restaurant_id`, then `int(restaurant_id)`, then
`float(payload["total"])` (a missing key raises `KeyError`); any failure is
caught and surfaced as invalid input.  No check relates `restaurant_id` to
the `restaurant` table: the engine is created without enabling SQLite
foreign-key enforcement (`PRAGMA foreign_keys` stays off), and the insert is
outside the handler's `try` block. -/
def create_order (st : St) (p : Payload) (now : Nat) : Except Err (Nat × St) :=
  let rid := p.restaurant_id.getD Jv.null
  if jvFalsy rid then Except.error Err.invalidInput
  else
    match pyInt? rid with
    | none => Except.error Err.invalidInput
    | some ridZ =>
      let items := p.items.getD (Jv.arr [])
      match p.total with
      | none => Except.error Err.invalidInput
      | some t =>
        match pyFloat? t with
        | none => Except.error Err.invalidInput
        | some tot =>
          let o : Order :=
            { id := st.nextOrderId, restaurant_id := ridZ, table := p.table
              items_json := dumps items, total := tot, created_at := now
              printed_at := none }
          Except.ok (o.id, { st with orders := st.orders ++ [o],
                                     nextOrderId := st.nextOrderId + 1 })

/-- Selection predicate of the poll query: this restaurant's unprinted
orders. -/
def isPendingFor (rid : Nat) (o : Order) : Bool :=
  o.restaurant_id == (rid : Int) && o.printed_at.isNone

/-- Orders a poll over `st` would select for restaurant id `rid`: the
pending rows, by ascending `id`, bounded by `limit`. -/
def pollSelect (st : St) (rid : Nat) (limit : Int) : List Order :=
  sqlLimit limit
    (sortBy (fun a b => decide (a.id ≤ b.id)) (st.orders.filter (isPendingFor rid)))

/-- Response view of one order: `json.loads` on the stored items (a parse
failure raises, aborting the request before the commit). -/
def viewOf (o : Order) : Option OrderView :=
  (loads o.items_json).map fun items =>
    { id := o.id, table := o.table, items := items, total := o.total
      created_at := o.created_at }

/-- Response views of the selected orders, in order; fails if any row's
stored items fail to parse. -/
def viewsOf : List Order → Option (List OrderView)
| [] => some []
| o :: os =>
  match viewOf o, viewsOf os with
  | some v, some vs => some (v :: vs)
  | _, _ => none

/-- Database update of a poll: rows whose primary key is among `ids` get
`printed_at := now` (one shared timestamp for the whole batch). -/
def markPrinted (ids : List Nat) (now : Nat) (orders : List Order) : List Order :=
  orders.map fun o =>
    if ids.contains o.id then { o with printed_at := some now } else o

/-- Handler `GET /api/orders/poll`.  Resolves the token, selects this
restaurant's unprinted orders by ascending id bounded by `limit`, builds the
response views, marks the selected rows printed and commits, all in one unit
of work.  `commitOk` models whether the commit succeeds; when nothing was
selected no commit is attempted (`if orders:` in the source), and a failed
commit rolls the session back, leaving the state unchanged. -/
def poll_orders (st : St) (token : String) (limit : Int) (now : Nat)
    (commitOk : Bool) : Except Err (List OrderView × St) :=
  match st.restaurants.find? (fun r => r.token == token) with
  | none => Except.error Err.notFound
  | some rest =>
    let selected := pollSelect st rest.id limit
    match viewsOf selected with
    | none => Except.error Err.internal
    | some views =>
      if selected.isEmpty then Except.ok (views, st)
      else if commitOk then
        Except.ok (views,
          { st with orders := markPrinted (selected.map Order.id) now st.orders })
      else Except.error Err.storage

/-- One logical operation of the mechanism, with its nondeterministic inputs
(fresh token, current time, commit outcome) made explicit. -/
inductive Op : Type where
| register (nameField : Option String) (token : String) (now : Nat) : Op
| listAll : Op
| verify (token : String) : Op
| submit (p : Payload) (now : Nat) : Op
| poll (token : String) (limit : Int) (now : Nat) (commitOk : Bool) : Op

/-- State reached after an operation: a failing handler leaves the database
unchanged (validation errors happen before any write; a failing commit is
rolled back when the session closes). -/
def applyOp (st : St) : Op → St
| Op.register nf tok now =>
  match create_restaurant st nf tok now with
  | Except.ok (_, st') => st'
  | Except.error _ => st
| Op.listAll => st
| Op.verify _ => st
| Op.submit p now =>
  match create_order st p now with
  | Except.ok (_, st') => st'
  | Except.error _ => st
| Op.poll tok lim now c =>
  match poll_orders st tok lim now c with
  | Except.ok (_, st') => st'
  | Except.error _ => st

/-- Well-formedness maintained by the autoincrement primary key: order rows
are stored in strictly increasing id order, below the next free id. -/
def WF (st : St) : Prop :=
  st.orders.Pairwise (fun a b => a.id < b.id) ∧
    ∀ o ∈ st.orders, o.id < st.nextOrderId

instance (st : St) : Decidable (WF st) := by
  unfold WF
  infer_instance

/-! ### Basic lemmas about the query building blocks -/

theorem sortBy_eq_self (le : α → α → Bool) :
    ∀ l : List α, l.Pairwise (fun a b => le a b = true) → sortBy le l = l := by
  intro l h
  induction l with
  | nil => rfl
  | cons x xs ih =>
    have hx : ∀ y ∈ xs, le x y = true := (List.pairwise_cons.mp h).1
    have hxs := (List.pairwise_cons.mp h).2
    unfold sortBy
    rw [ih hxs]
    cases xs with
    | nil => rfl
    | cons y ys =>
      unfold insertLe
      rw [hx y (List.mem_cons_self _ _), if_pos rfl]

theorem sqlLimit_subset (l : Int) (xs : List α) : sqlLimit l xs ⊆ xs := by
  unfold sqlLimit
  split
  · exact fun a h => h
  · exact List.take_subset _ _

theorem sqlLimit_pairwise {R : α → α → Prop} (l : Int) {xs : List α}
    (h : xs.Pairwise R) : (sqlLimit l xs).Pairwise R := by
  unfold sqlLimit
  split
  · exact h
  · exact h.sublist (List.take_sublist _ _)

theorem pairwise_id_unique {l : List Order}
    (h : l.Pairwise (fun a b => a.id < b.id)) :
    ∀ a ∈ l, ∀ b ∈ l, a.id = b.id → a = b := by
  induction l with
  | nil => intro a ha; exact absurd ha (List.not_mem_nil a)
  | cons x xs ih =>
    have hx := (List.pairwise_cons.mp h).1
    have hxs := (List.pairwise_cons.mp h).2
    intro a ha b hb hab
    rcases List.mem_cons.mp ha with rfl | ha' <;>
      rcases List.mem_cons.mp hb with rfl | hb'
    · rfl
    · exact absurd hab (Nat.ne_of_lt (hx b hb'))
    · exact absurd hab.symm (Nat.ne_of_lt (hx a ha'))
    · exact ih hxs a ha' b hb' hab

/-- Under well-formedness the ORDER BY of the poll query is the identity on
the filtered rows, so the selection is a take of the pending list. -/
theorem pollSelect_eq_take {st : St} (hwf : WF st) (rid : Nat) (limit : Int) :
    pollSelect st rid limit = sqlLimit limit (st.orders.filter (isPendingFor rid)) := by
  unfold pollSelect
  rw [sortBy_eq_self]
  exact ((hwf.1.filter _).imp fun hlt => by
    simpa using Nat.le_of_lt hlt)

theorem pollSelect_subset {st : St} (rid : Nat) (limit : Int) :
    ∀ o ∈ pollSelect st rid limit, o ∈ st.orders ∧ isPendingFor rid o = true := by
  intro o ho
  unfold pollSelect at ho
  have h1 : o ∈ sortBy (fun a b => decide (a.id ≤ b.id))
      (st.orders.filter (isPendingFor rid)) := sqlLimit_subset _ _ ho
  have h2 : o ∈ st.orders.filter (isPendingFor rid) := by
    clear ho
    generalize st.orders.filter (isPendingFor rid) = l at h1
    induction l with
    | nil => simp [sortBy] at h1
    | cons x xs ih =>
      unfold sortBy at h1
      have : o ∈ insertLe (fun a b => decide (a.id ≤ b.id)) x (sortBy _ xs) := h1
      have hmem : o = x ∨ o ∈ sortBy (fun a b => decide (a.id ≤ b.id)) xs := by
        clear ih h1
        generalize sortBy (fun a b => decide (a.id ≤ b.id)) xs = l' at this
        induction l' with
        | nil => simpa [insertLe] using this
        | cons y ys ih' =>
          unfold insertLe at this
          split at this
          · rcases List.mem_cons.mp this with rfl | h'
            · exact Or.inl rfl
            · exact Or.inr h'
          · rcases List.mem_cons.mp this with rfl | h'
            · exact Or.inr (List.mem_cons_self _ _)
            · rcases ih' h' with rfl | h'' 
              · exact Or.inl rfl
              · exact Or.inr (List.mem_cons_of_mem _ h'')
      rcases hmem with rfl | h'
      · exact List.mem_cons_self _ _
      · exact List.mem_cons_of_mem _ (ih h')
  exact ⟨List.mem_of_mem_filter h2, List.of_mem_filter h2⟩

theorem viewsOf_forall₂ :
    ∀ {l : List Order} {vs : List OrderView}, viewsOf l = some vs →
      List.Forall₂ (fun o v => viewOf o = some v) l vs := by
  intro l
  induction l with
  | nil =>
    intro vs h
    unfold viewsOf at h
    cases h
    exact List.Forall₂.nil
  | cons o os ih =>
    intro vs h
    unfold viewsOf at h
    cases hv : viewOf o with
    | none => rw [hv] at h; exact absurd h (by simp)
    | some v =>
      rw [hv] at h
      cases hvs : viewsOf os with
      | none => rw [hvs] at h; exact absurd h (by simp)
      | some vs' =>
        rw [hvs] at h
        simp only [Option.some.injEq] at h
        subst h
        exact List.Forall₂.cons hv (ih hvs)

theorem viewOf_fields {o : Order} {v : OrderView} (h : viewOf o = some v) :
    v.id = o.id ∧ v.table = o.table ∧ v.total = o.total ∧
      v.created_at = o.created_at ∧ loads o.items_json = some v.items := by
  unfold viewOf at h
  cases hl : loads o.items_json with
  | none => rw [hl] at h; exact absurd h (by simp)
  | some j =>
    rw [hl] at h
    simp only [Option.map_some', Option.some.injEq] at h
    subst h
    exact ⟨rfl, rfl, rfl, rfl, rfl⟩

theorem forall₂_view_map_id {l : List Order} {vs : List OrderView}
    (h : List.Forall₂ (fun o v => viewOf o = some v) l vs) :
    vs.map OrderView.id = l.map Order.id := by
  induction h with
  | nil => rfl
  | cons hov _ ih => simp only [List.map_cons, ih, (viewOf_fields hov).1]

theorem viewsOf_map_id {l : List Order} {vs : List OrderView}
    (h : viewsOf l = some vs) : vs.map OrderView.id = l.map Order.id :=
  forall₂_view_map_id (viewsOf_forall₂ h)

theorem markPrinted_map_id (ids : List Nat) (now : Nat) (l : List Order) :
    (markPrinted ids now l).map Order.id = l.map Order.id := by
  unfold markPrinted
  rw [List.map_map]
  apply List.map_congr_left
  intro o _
  simp only [Function.comp_apply]
  split <;> rfl

theorem mem_markPrinted {ids : List Nat} {now : Nat} {l : List Order} {o' : Order}
    (h : o' ∈ markPrinted ids now l) :
    ∃ o ∈ l, o' = if ids.contains o.id then { o with printed_at := some now } else o := by
  unfold markPrinted at h
  rcases List.mem_map.mp h with ⟨o, ho, rfl⟩
  exact ⟨o, ho, rfl⟩

theorem markPrinted_mem_of_mem {ids : List Nat} {now : Nat} {l : List Order} {o : Order}
    (h : o ∈ l) :
    (if ids.contains o.id then { o with printed_at := some now } else o) ∈
      markPrinted ids now l :=
  List.mem_map.mpr ⟨o, h, rfl⟩

theorem poll_ok_spec {st : St} {tok : String} {lim : Int} {now : Nat} {ck : Bool}
    {vs : List OrderView} {st' : St}
    (h : poll_orders st tok lim now ck = Except.ok (vs, st')) :
    ∃ r, st.restaurants.find? (fun x => x.token == tok) = some r ∧
      viewsOf (pollSelect st r.id lim) = some vs ∧
      ((pollSelect st r.id lim = [] ∧ st' = st) ∨
       (pollSelect st r.id lim ≠ [] ∧ ck = true ∧
         st' = { st with orders := markPrinted ((pollSelect st r.id lim).map Order.id) now st.orders })) := by
  unfold poll_orders at h
  cases hf : st.restaurants.find? (fun x => x.token == tok) with
  | none => rw [hf] at h; simp at h
  | some r =>
    rw [hf] at h
    simp only [] at h
    refine ⟨r, rfl, ?_⟩
    cases hv : viewsOf (pollSelect st r.id lim) with
    | none => rw [hv] at h; simp at h
    | some views =>
      rw [hv] at h
      simp only [] at h
      by_cases hemp : (pollSelect st r.id lim).isEmpty
      · rw [if_pos hemp] at h
        simp only [Except.ok.injEq, Prod.mk.injEq] at h
        exact ⟨by rw [h.1], Or.inl ⟨List.isEmpty_iff.mp hemp, h.2.symm⟩⟩
      · rw [if_neg hemp] at h
        cases hck : ck with
        | false => rw [hck] at h; simp at h
        | true =>
          rw [hck] at h
          simp only [if_pos] at h
          simp only [Except.ok.injEq, Prod.mk.injEq] at h
          refine ⟨by rw [h.1], Or.inr ⟨?_, rfl, h.2.symm⟩⟩
          intro hnil
          exact hemp (by simp [hnil])

/-! ### Handler success characterizations and invariant preservation -/

theorem create_restaurant_ok_spec {st : St} {nf : Option String} {tok : String}
    {now : Nat} {r : Restaurant} {st' : St}
    (h : create_restaurant st nf tok now = Except.ok (r, st')) :
    r = { id := st.nextRestaurantId, name := pyStrip (nf.getD ""), token := tok, created_at := now } ∧
      st' = { st with restaurants := st.restaurants ++ [r], nextRestaurantId := st.nextRestaurantId + 1 } := by
  unfold create_restaurant at h
  simp only [] at h
  by_cases h1 : (pyStrip (nf.getD "")).isEmpty = true
  · rw [if_pos h1] at h; exact absurd h (by simp)
  · rw [if_neg h1] at h
    by_cases h2 : (st.restaurants.any fun x => x.token == tok) = true
    · rw [if_pos h2] at h; exact absurd h (by simp)
    · rw [if_neg h2] at h
      simp only [Except.ok.injEq, Prod.mk.injEq] at h
      exact ⟨h.1.symm, by rw [← h.1, ← h.2]⟩

theorem create_order_ok_spec {st : St} {p : Payload} {now : Nat}
    {oid : Nat} {st' : St} (h : create_order st p now = Except.ok (oid, st')) :
    ∃ ridZ tot, pyInt? (p.restaurant_id.getD Jv.null) = some ridZ ∧
      oid = st.nextOrderId ∧
      st' = { st with orders := st.orders ++ [{ id := st.nextOrderId, restaurant_id := ridZ, table := p.table, items_json := dumps (p.items.getD (Jv.arr [])), total := tot, created_at := now, printed_at := none }], nextOrderId := st.nextOrderId + 1 } := by
  unfold create_order at h
  simp only [] at h
  by_cases h1 : jvFalsy (p.restaurant_id.getD Jv.null) = true
  · rw [if_pos h1] at h; exact absurd h (by simp)
  · rw [if_neg h1] at h
    cases h2 : pyInt? (p.restaurant_id.getD Jv.null) with
    | none => rw [h2] at h; exact absurd h (by simp)
    | some ridZ =>
      rw [h2] at h
      simp only [] at h
      cases h3 : p.total with
      | none => rw [h3] at h; exact absurd h (by simp)
      | some t =>
        rw [h3] at h
        simp only [] at h
        cases h4 : pyFloat? t with
        | none => rw [h4] at h; exact absurd h (by simp)
        | some tot =>
          rw [h4] at h
          simp only [Except.ok.injEq, Prod.mk.injEq] at h
          exact ⟨ridZ, tot, rfl, h.1.symm, h.2.symm⟩

theorem create_order_error_iff (st : St) (p : Payload) (now : Nat) :
    create_order st p now = Except.error Err.invalidInput ↔
      (jvFalsy (p.restaurant_id.getD Jv.null) = true ∨
       pyInt? (p.restaurant_id.getD Jv.null) = none ∨
       p.total = none ∨ (∃ t, p.total = some t ∧ pyFloat? t = none)) := by
  by_cases h1 : jvFalsy (p.restaurant_id.getD Jv.null) = true
  · simp [create_order, h1]
  · cases h2 : pyInt? (p.restaurant_id.getD Jv.null) with
    | none => simp [create_order, h1, h2]
    | some ridZ =>
      cases h3 : p.total with
      | none => simp [create_order, h1, h2, h3]
      | some t =>
        cases h4 : pyFloat? t with
        | none => simp [create_order, h1, h2, h3, h4]
        | some tot => simp [create_order, h1, h2, h3, h4]

theorem markPrinted_id_pointwise (ids : List Nat) (now : Nat) (o : Order) :
    (if ids.contains o.id then { o with printed_at := some now } else o).id = o.id := by
  split <;> rfl

theorem WF_mark {st : St} (hwf : WF st) (ids : List Nat) (now : Nat) :
    WF { st with orders := markPrinted ids now st.orders } := by
  constructor
  · unfold markPrinted
    rw [List.pairwise_map]
    refine hwf.1.imp_of_mem fun {a b} _ _ hlt => ?_
    rw [markPrinted_id_pointwise, markPrinted_id_pointwise]
    exact hlt
  · intro o' ho'
    rcases mem_markPrinted ho' with ⟨o, ho, rfl⟩
    rw [markPrinted_id_pointwise]
    exact hwf.2 o ho

theorem WF_create_order {st : St} {p : Payload} {now : Nat} {oid : Nat} {st' : St}
    (hwf : WF st) (h : create_order st p now = Except.ok (oid, st')) : WF st' := by
  rcases create_order_ok_spec h with ⟨ridZ, tot, _, _, rfl⟩
  constructor
  · refine List.pairwise_append.mpr ⟨hwf.1, List.pairwise_singleton _ _, ?_⟩
    intro a ha b hb
    rcases List.mem_singleton.mp hb with rfl
    exact hwf.2 a ha
  · intro o ho
    rcases List.mem_append.mp ho with ho' | ho'
    · exact Nat.lt_succ_of_lt (hwf.2 o ho')
    · rcases List.mem_singleton.mp ho' with rfl
      exact Nat.lt_succ_self _

theorem poll_ok_state {st : St} {tok : String} {lim : Int} {now : Nat} {ck : Bool}
    {vs : List OrderView} {st' : St}
    (h : poll_orders st tok lim now ck = Except.ok (vs, st')) :
    ∃ r, st.restaurants.find? (fun x => x.token == tok) = some r ∧
      vs.map OrderView.id = (pollSelect st r.id lim).map Order.id ∧
      (st' = st ∨ st'.orders = markPrinted ((pollSelect st r.id lim).map Order.id) now st.orders) ∧
      (pollSelect st r.id lim ≠ [] → st'.orders = markPrinted ((pollSelect st r.id lim).map Order.id) now st.orders) := by
  rcases poll_ok_spec h with ⟨r, hf, hv, hcase⟩
  refine ⟨r, hf, viewsOf_map_id hv, ?_, ?_⟩
  · rcases hcase with ⟨_, rfl⟩ | ⟨_, _, rfl⟩
    · exact Or.inl rfl
    · exact Or.inr rfl
  · intro hne
    rcases hcase with ⟨hnil, _⟩ | ⟨_, _, rfl⟩
    · exact absurd hnil hne
    · rfl

theorem WF_poll {st : St} {tok : String} {lim : Int} {now : Nat} {ck : Bool}
    {vs : List OrderView} {st' : St} (hwf : WF st)
    (h : poll_orders st tok lim now ck = Except.ok (vs, st')) : WF st' := by
  rcases poll_ok_spec h with ⟨r, _, _, hcase⟩
  rcases hcase with ⟨_, rfl⟩ | ⟨_, _, rfl⟩
  · exact hwf
  · exact WF_mark hwf _ _

theorem WF_applyOp {st : St} (hwf : WF st) (op : Op) : WF (applyOp st op) := by
  cases op with
  | register nf tok now =>
    simp only [applyOp]
    cases hc : create_restaurant st nf tok now with
    | error e => exact hwf
    | ok q =>
      obtain ⟨r0, st1⟩ := q
      rcases create_restaurant_ok_spec hc with ⟨_, rfl⟩
      exact hwf
  | listAll => exact hwf
  | verify tok => exact hwf
  | submit p now =>
    simp only [applyOp]
    cases hc : create_order st p now with
    | error e => exact hwf
    | ok q =>
      obtain ⟨oid, st1⟩ := q
      exact WF_create_order hwf hc
  | poll tok lim now ck =>
    simp only [applyOp]
    cases hc : poll_orders st tok lim now ck with
    | error e => exact hwf
    | ok q =>
      obtain ⟨vs, st1⟩ := q
      exact WF_poll hwf hc

theorem isPendingFor_iff {rid : Nat} {o : Order} :
    isPendingFor rid o = true ↔ o.restaurant_id = (rid : Int) ∧ o.printed_at = none := by
  simp [isPendingFor]

theorem poll_resp_pending {st : St} {tok : String} {lim : Int} {now : Nat}
    {ck : Bool} {vs : List OrderView} {st' : St}
    (h : poll_orders st tok lim now ck = Except.ok (vs, st')) :
    ∀ i ∈ vs.map OrderView.id, ∃ o ∈ st.orders, o.id = i ∧ o.printed_at = none := by
  rcases poll_ok_state h with ⟨r, _, hmap, _, _⟩
  intro i hi
  rw [hmap] at hi
  rcases List.mem_map.mp hi with ⟨o, ho, rfl⟩
  rcases pollSelect_subset _ _ o ho with ⟨hmem, hpend⟩
  exact ⟨o, hmem, rfl, (isPendingFor_iff.mp hpend).2⟩

theorem poll_marks_resp {st : St} {tok : String} {lim : Int} {now : Nat}
    {ck : Bool} {vs : List OrderView} {st' : St}
    (h : poll_orders st tok lim now ck = Except.ok (vs, st')) :
    ∀ i ∈ vs.map OrderView.id, ∃ o' ∈ st'.orders, o'.id = i ∧ o'.printed_at = some now := by
  rcases poll_ok_state h with ⟨r, _, hmap, _, hmark⟩
  intro i hi
  rw [hmap] at hi
  rcases List.mem_map.mp hi with ⟨o, ho, rfl⟩
  have hne : pollSelect st r.id lim ≠ [] := by
    intro hnil
    rw [hnil] at ho
    exact (List.not_mem_nil o) ho
  have horders := hmark hne
  have homem : o ∈ st.orders := (pollSelect_subset _ _ o ho).1
  have hin := @markPrinted_mem_of_mem
    ((pollSelect st r.id lim).map Order.id) now st.orders o homem
  rw [if_pos (by simpa using List.mem_map_of_mem Order.id ho)] at hin
  exact ⟨{ o with printed_at := some now }, by rw [horders]; exact hin, rfl, rfl⟩

theorem poll_keeps_printed {st : St} {tok : String} {lim : Int} {now : Nat}
    {ck : Bool} {vs : List OrderView} {st' : St} (hwf : WF st)
    (h : poll_orders st tok lim now ck = Except.ok (vs, st'))
    {o : Order} (ho : o ∈ st.orders) {t : Nat} (hp : o.printed_at = some t) :
    ∃ o' ∈ st'.orders, o'.id = o.id ∧ o'.printed_at = some t := by
  rcases poll_ok_state h with ⟨r, _, _, hcase, _⟩
  rcases hcase with rfl | horders
  · exact ⟨o, ho, rfl, hp⟩
  · have hnc : ((pollSelect st r.id lim).map Order.id).contains o.id = false := by
      rw [Bool.eq_false_iff]
      intro hcon
      have hmem : o.id ∈ (pollSelect st r.id lim).map Order.id := by
        simpa using hcon
      rcases List.mem_map.mp hmem with ⟨s, hs, hsid⟩
      rcases pollSelect_subset _ _ s hs with ⟨hsmem, hspend⟩
      have hsnone := (isPendingFor_iff.mp hspend).2
      have hso : s = o := pairwise_id_unique hwf.1 s hsmem o ho hsid
      rw [hso, hp] at hsnone
      exact Option.noConfusion hsnone
    have hin := @markPrinted_mem_of_mem
      ((pollSelect st r.id lim).map Order.id) now st.orders o ho
    rw [if_neg (by rw [hnc]; exact Bool.false_ne_true)] at hin
    exact ⟨o, by rw [horders]; exact hin, rfl, hp⟩

theorem poll_pending_before {st : St} {tok : String} {lim : Int} {now : Nat}
    {ck : Bool} {vs : List OrderView} {st' : St}
    (h : poll_orders st tok lim now ck = Except.ok (vs, st'))
    {o' : Order} (ho' : o' ∈ st'.orders) (hp : o'.printed_at = none) :
    ∃ o ∈ st.orders, o.id = o'.id ∧ o.printed_at = none := by
  rcases poll_ok_state h with ⟨r, _, _, hcase, _⟩
  rcases hcase with rfl | horders
  · exact ⟨o', ho', rfl, hp⟩
  · rw [horders] at ho'
    rcases mem_markPrinted ho' with ⟨o, ho, heq⟩
    by_cases hc : ((pollSelect st r.id lim).map Order.id).contains o.id
    · rw [if_pos hc] at heq
      rw [heq] at hp
      exact Option.noConfusion hp
    · rw [if_neg hc] at heq
      exact ⟨o, ho, by rw [heq], by rw [← heq]; exact hp⟩

/-- Claim C7 core: across any operation, an order row that already has a
non-null `printed_at` keeps exactly that value. -/
theorem printedAt_mono {st : St} (hwf : WF st) (op : Op) {o o' : Order}
    (ho : o ∈ st.orders) (ho' : o' ∈ (applyOp st op).orders) (hid : o'.id = o.id)
    {t : Nat} (hp : o.printed_at = some t) : o'.printed_at = some t := by
  cases op with
  | register nf tok now =>
    have horders : (applyOp st (Op.register nf tok now)).orders = st.orders := by
      simp only [applyOp]
      cases hc : create_restaurant st nf tok now with
      | error e => rfl
      | ok q =>
        obtain ⟨r0, st1⟩ := q
        rcases create_restaurant_ok_spec hc with ⟨_, rfl⟩
        rfl
    rw [horders] at ho'
    have : o' = o := pairwise_id_unique hwf.1 o' ho' o ho hid
    rw [this, hp]
  | listAll =>
    have : o' = o := pairwise_id_unique hwf.1 o' ho' o ho hid
    rw [this, hp]
  | verify tok =>
    have : o' = o := pairwise_id_unique hwf.1 o' ho' o ho hid
    rw [this, hp]
  | submit p now =>
    revert ho'
    simp only [applyOp]
    cases hc : create_order st p now with
    | error e =>
      intro ho'
      have : o' = o := pairwise_id_unique hwf.1 o' ho' o ho hid
      rw [this, hp]
    | ok q =>
      obtain ⟨oid, st1⟩ := q
      intro ho'
      rcases create_order_ok_spec hc with ⟨ridZ, tot, _, _, hst⟩
      rw [hst] at ho'
      rcases List.mem_append.mp ho' with hold | hnew
      · have : o' = o := pairwise_id_unique hwf.1 o' hold o ho hid
        rw [this, hp]
      · rcases List.mem_singleton.mp hnew with rfl
        have hlt := hwf.2 o ho
        have hid' : st.nextOrderId = o.id := hid
        exact absurd hid' (by omega)
  | poll tok lim now ck =>
    revert ho'
    simp only [applyOp]
    cases hc : poll_orders st tok lim now ck with
    | error e =>
      intro ho'
      have : o' = o := pairwise_id_unique hwf.1 o' ho' o ho hid
      rw [this, hp]
    | ok q =>
      obtain ⟨vs, st1⟩ := q
      intro ho'
      rcases poll_keeps_printed hwf hc ho hp with ⟨o'', ho'', hid'', hp''⟩
      have hwf' : WF st1 := WF_poll hwf hc
      have : o' = o'' := pairwise_id_unique hwf'.1 o' ho' o'' ho'' (by rw [hid, ← hid''])
      rw [this, hp'']

theorem pollSelect_pairwise {st : St} (hwf : WF st) (rid : Nat) (lim : Int) :
    (pollSelect st rid lim).Pairwise (fun a b => a.id < b.id) := by
  rw [pollSelect_eq_take hwf]
  exact sqlLimit_pairwise _ (hwf.1.filter _)

theorem poll_resp_nodup {st : St} {tok : String} {lim : Int} {now : Nat}
    {ck : Bool} {vs : List OrderView} {st' : St} (hwf : WF st)
    (h : poll_orders st tok lim now ck = Except.ok (vs, st')) :
    (vs.map OrderView.id).Nodup := by
  rcases poll_ok_state h with ⟨r, _, hmap, _, _⟩
  rw [hmap]
  have hpw : ((pollSelect st r.id lim).map Order.id).Pairwise (· < ·) :=
    List.Pairwise.map _ (fun _ _ hab => hab) (pollSelect_pairwise hwf r.id lim)
  exact hpw.imp Nat.ne_of_lt

/-- Arguments of one poll call in a sequence of polls sharing a token. -/
structure PollCall : Type where
  limit : Int
  now : Nat
  commitOk : Bool
deriving DecidableEq

/-- A sequence of poll requests with the same token threaded through the
store state; `none` when any call fails, otherwise the per-call lists of
returned order ids and the final state. -/
def pollChain (tok : String) : St → List PollCall → Option (List (List Nat) × St)
| st, [] => some ([], st)
| st, c :: cs =>
  match poll_orders st tok c.limit c.now c.commitOk with
  | Except.error _ => none
  | Except.ok (vs, st') =>
    match pollChain tok st' cs with
    | none => none
    | some (rs, stF) => some ((vs.map OrderView.id) :: rs, stF)

theorem pollChain_pending {tok : String} :
    ∀ {calls : List PollCall} {st : St} {rs : List (List Nat)} {stF : St},
      WF st → pollChain tok st calls = some (rs, stF) →
      rs.flatten.Nodup ∧
        ∀ i ∈ rs.flatten, ∃ o ∈ st.orders, o.id = i ∧ o.printed_at = none := by
  intro calls
  induction calls with
  | nil =>
    intro st rs stF hwf h
    unfold pollChain at h
    simp only [Option.some.injEq, Prod.mk.injEq] at h
    obtain ⟨rfl, rfl⟩ := h
    exact ⟨List.nodup_nil, by simp⟩
  | cons c cs ih =>
    intro st rs stF hwf h
    unfold pollChain at h
    cases hp : poll_orders st tok c.limit c.now c.commitOk with
    | error e => rw [hp] at h; exact absurd h (by simp)
    | ok q =>
      obtain ⟨vs, st1⟩ := q
      rw [hp] at h
      simp only [] at h
      cases hch : pollChain tok st1 cs with
      | none => rw [hch] at h; exact absurd h (by simp)
      | some q2 =>
        obtain ⟨rs', stF'⟩ := q2
        rw [hch] at h
        simp only [Option.some.injEq, Prod.mk.injEq] at h
        obtain ⟨rfl, rfl⟩ := h
        have hwf1 : WF st1 := WF_poll hwf hp
        rcases ih hwf1 hch with ⟨hnodup', hpend'⟩
        rw [List.flatten_cons]
        constructor
        · refine List.nodup_append.mpr ⟨poll_resp_nodup hwf hp, hnodup', ?_⟩
          intro i hi hi'
          rcases poll_marks_resp hp i hi with ⟨oP, hoP, hoPid, hoPprint⟩
          rcases hpend' i hi' with ⟨oN, hoN, hoNid, hoNprint⟩
          have : oP = oN :=
            pairwise_id_unique hwf1.1 oP hoP oN hoN (by rw [hoPid, hoNid])
          rw [this, hoNprint] at hoPprint
          exact Option.noConfusion hoPprint
        · intro i hi
          rcases List.mem_append.mp hi with hil | hir
          · exact poll_resp_pending hp i hil
          · rcases hpend' i hir with ⟨o1, ho1, ho1id, ho1print⟩
            rcases poll_pending_before hp ho1 ho1print with ⟨o0, ho0, ho0id, ho0print⟩
            exact ⟨o0, ho0, by rw [ho0id, ho1id], ho0print⟩

/-! ### Witness fixtures -/

/-- A registered restaurant used by concrete witnesses. -/
def wRest : Restaurant := { id := 1, name := "A", token := "tokA", created_at := 0 }

/-- A pending order of restaurant 1 with an empty items payload. -/
def wOrder1 : Order :=
  { id := 1, restaurant_id := 1, table := none, items_json := "[]", total := 0,
    created_at := 0, printed_at := none }

/-- A second pending order of restaurant 1. -/
def wOrder2 : Order :=
  { id := 2, restaurant_id := 1, table := some "5", items_json := "[]", total := 320,
    created_at := 0, printed_at := none }

/-- A store with one restaurant and two pending orders. -/
def wSt : St :=
  { restaurants := [wRest], orders := [wOrder1, wOrder2], nextRestaurantId := 2,
    nextOrderId := 3 }

/-! ### Claim theorems -/

/-- C1: at-most-once delivery for poll.  Across any sequence of successful
poll calls with the same token, the returned order ids contain no duplicates
at all, and in particular the responses are pairwise disjoint, so an order
delivered once never appears in a later response. -/
theorem poll_at_most_once {tok : String} {st : St} {calls : List PollCall}
    {rs : List (List Nat)} {stF : St} (hwf : WF st)
    (h : pollChain tok st calls = some (rs, stF)) :
    rs.flatten.Nodup ∧ rs.Pairwise List.Disjoint :=
  ⟨(pollChain_pending hwf h).1, (List.nodup_flatten.mp (pollChain_pending hwf h).1).2⟩

/-- Witness for C1: two successful polls against a two-order store return
ids [[1], [2]]. -/
theorem poll_at_most_once_witness :
    ([[1], [2]] : List (List Nat)).flatten.Nodup ∧
      ([[1], [2]] : List (List Nat)).Pairwise List.Disjoint :=
  poll_at_most_once (by decide)
    (rfl : pollChain "tokA" wSt [⟨1, 10, true⟩, ⟨5, 11, true⟩] = some ([[1], [2]],
      { restaurants := [wRest],
        orders := [{ wOrder1 with printed_at := some 10 },
                   { wOrder2 with printed_at := some 11 }],
        nextRestaurantId := 2, nextOrderId := 3 }))

/-- C7: for every operation of the mechanism, an order row whose
`printed_at` is non-null keeps exactly that value; only null can change. -/
theorem printed_at_null_to_nonnull_only {st : St} (hwf : WF st) (op : Op)
    {o o' : Order} (ho : o ∈ st.orders) (ho' : o' ∈ (applyOp st op).orders)
    (hid : o'.id = o.id) {t : Nat} (hp : o.printed_at = some t) :
    o'.printed_at = some t :=
  printedAt_mono hwf op ho ho' hid hp

/-- A store whose first order is already printed. -/
def wStPrinted : St :=
  { restaurants := [wRest],
    orders := [{ wOrder1 with printed_at := some 4 }, wOrder2],
    nextRestaurantId := 2, nextOrderId := 3 }

/-- Witness for C7: a poll that claims order 2 leaves the already-printed
order 1 with its original timestamp. -/
theorem printed_at_null_to_nonnull_only_witness :
    ({ wOrder1 with printed_at := some 4 } : Order).printed_at = some 4 :=
  printed_at_null_to_nonnull_only
    (by decide : WF wStPrinted) (Op.poll "tokA" 5 9 true)
    (by decide : ({ wOrder1 with printed_at := some 4 } : Order) ∈ wStPrinted.orders)
    (by decide : ({ wOrder1 with printed_at := some 4 } : Order) ∈
      (applyOp wStPrinted (Op.poll "tokA" 5 9 true)).orders)
    rfl rfl

/-- C8: a poll with limit 0 against any state with a valid token succeeds
with an empty response and returns the state unchanged (no order marked),
regardless of how many unprinted orders the restaurant has. -/
theorem poll_limit_zero_noop {st : St} {tok : String} {now : Nat} {ck : Bool}
    {r : Restaurant}
    (hr : st.restaurants.find? (fun x => x.token == tok) = some r) :
    poll_orders st tok 0 now ck = Except.ok ([], st) := by
  unfold poll_orders
  rw [hr]
  have hsel : pollSelect st r.id 0 = [] := by
    unfold pollSelect sqlLimit
    simp
  simp [hsel, viewsOf]

/-- Witness for C8: limit 0 on a store with two pending orders. -/
theorem poll_limit_zero_noop_witness :
    poll_orders wSt "tokA" 0 7 true = Except.ok ([], wSt) :=
  poll_limit_zero_noop rfl

/-- C3: atomicity of poll on storage failure.  When the commit would have to
run (some orders were selected) but fails, the whole request fails with the
storage error, no orders are delivered, the state is unchanged, and every
selected order is still unprinted. -/
theorem poll_commit_failure_atomic {st : St} {tok : String} {lim : Int}
    {now : Nat} {r : Restaurant} {views : List OrderView}
    (hr : st.restaurants.find? (fun x => x.token == tok) = some r)
    (hsel : pollSelect st r.id lim ≠ [])
    (hviews : viewsOf (pollSelect st r.id lim) = some views) :
    poll_orders st tok lim now false = Except.error Err.storage ∧
      applyOp st (Op.poll tok lim now false) = st ∧
      ∀ o ∈ pollSelect st r.id lim, o.printed_at = none := by
  have herr : poll_orders st tok lim now false = Except.error Err.storage := by
    unfold poll_orders
    rw [hr]
    simp only []
    rw [hviews]
    simp only []
    rw [if_neg (fun hemp => hsel (List.isEmpty_iff.mp hemp))]
    simp
  refine ⟨herr, ?_, ?_⟩
  · simp only [applyOp]
    rw [herr]
  · intro o ho
    exact (isPendingFor_iff.mp (pollSelect_subset _ _ o ho).2).2

/-- Witness for C3: a failing commit on the two-order store. -/
theorem poll_commit_failure_atomic_witness :
    poll_orders wSt "tokA" 5 9 false = Except.error Err.storage ∧
      applyOp wSt (Op.poll "tokA" 5 9 false) = wSt ∧
      ∀ o ∈ pollSelect wSt 1 5, o.printed_at = none :=
  poll_commit_failure_atomic
    (rfl : wSt.restaurants.find? (fun x => x.token == "tokA") = some wRest)
    (by decide : pollSelect wSt wRest.id 5 ≠ [])
    (rfl : viewsOf (pollSelect wSt wRest.id 5) =
      some [{ id := 1, table := none, items := Jv.arr [], total := 0, created_at := 0 },
            { id := 2, table := some "5", items := Jv.arr [], total := 320, created_at := 0 }])

/-- An empty store, as right after table creation. -/
def stEmpty : St :=
  { restaurants := [], orders := [], nextRestaurantId := 1, nextOrderId := 1 }

/-- The store after registering one restaurant named "A". -/
def stOneA : St :=
  { restaurants := [{ id := 1, name := "A", token := "t1", created_at := 0 }],
    orders := [], nextRestaurantId := 2, nextOrderId := 1 }

/-- The store after registering "A" twice (both registrations succeeded). -/
def stTwoA : St :=
  { restaurants := [{ id := 1, name := "A", token := "t1", created_at := 0 },
                    { id := 2, name := "A", token := "t2", created_at := 1 }],
    orders := [], nextRestaurantId := 3, nextOrderId := 1 }

/-- C4: registering the same name twice is NOT rejected.  Only `token`
carries a uniqueness constraint in the schema, so the second registration
with name "A" (and a fresh token) succeeds and the directory ends up with
two restaurants named "A".  The handler's duplicate branch (which reports
"Restaurant name already exists") can only ever fire on a token collision. -/
theorem duplicate_name_registration_succeeds :
    create_restaurant stEmpty (some "A") "t1" 0 =
      Except.ok ({ id := 1, name := "A", token := "t1", created_at := 0 }, stOneA) ∧
    create_restaurant stOneA (some "A") "t2" 1 =
      Except.ok ({ id := 2, name := "A", token := "t2", created_at := 1 }, stTwoA) ∧
    stTwoA.restaurants.map Restaurant.name = ["A", "A"] := by
  exact ⟨rfl, rfl, rfl⟩

/-- A submission payload whose `restaurant_id` (7) matches no restaurant. -/
def pDangling : Payload :=
  { restaurant_id := some (Jv.num 7), table := none, items := none,
    total := some (Jv.num 1) }

/-- The row the dangling submission inserts. -/
def oDangling : Order :=
  { id := 1, restaurant_id := 7, table := none, items_json := "[]", total := 1,
    created_at := 0, printed_at := none }

/-- C5: an order whose `restaurant_id` references no restaurant is accepted
and inserted.  The handler never checks existence, the engine leaves
SQLite's foreign-key enforcement off, and the insert sits outside the `try`
block, so no `InvalidInput` can arise from the reference. -/
theorem order_created_without_restaurant :
    create_order stEmpty pDangling 0 =
      Except.ok (1, { restaurants := [], orders := [oDangling],
                      nextRestaurantId := 1, nextOrderId := 2 }) ∧
    stEmpty.restaurants = [] := by
  exact ⟨rfl, rfl⟩

/-- C6 counterexample: `restaurant_id := 0` is present and convertible to an
integer, and the total is numeric, yet the submission is rejected — the
handler's `if not restaurant_id` truthiness check fires on the falsy `0`. -/
theorem create_order_zero_restaurant_id_rejected :
    create_order wSt
      { restaurant_id := some (Jv.num 0), table := none, items := none,
        total := some (Jv.num 5) } 3 = Except.error Err.invalidInput ∧
      pyInt? (Jv.num 0) = some 0 ∧ pyFloat? (Jv.num 5) = some 5 := by
  exact ⟨rfl, rfl, rfl⟩

theorem create_order_error_only_invalid {st : St} {p : Payload} {now : Nat}
    {e : Err} (h : create_order st p now = Except.error e) :
    e = Err.invalidInput := by
  unfold create_order at h
  simp only [] at h
  split at h
  · exact (Except.error.inj h).symm
  · cases h2 : pyInt? (p.restaurant_id.getD Jv.null) with
    | none => rw [h2] at h; exact (Except.error.inj h).symm
    | some ridZ =>
      rw [h2] at h
      simp only [] at h
      cases h3 : p.total with
      | none => rw [h3] at h; exact (Except.error.inj h).symm
      | some t =>
        rw [h3] at h
        simp only [] at h
        cases h4 : pyFloat? t with
        | none => rw [h4] at h; exact (Except.error.inj h).symm
        | some tot => rw [h4] at h; exact absurd h (by simp)

/-- C6 as amended: submission validation can only fail with `InvalidInput`,
and it fails exactly when `restaurant_id` is absent, falsy (Python
truthiness — so also for the integer-convertible `0`, `False` and `""`), or
not convertible to an integer, or `total` is absent or not convertible to a
number; in all other cases both validation steps pass and a row is
inserted. -/
theorem create_order_validation (st : St) (p : Payload) (now : Nat) :
    (∀ e, create_order st p now = Except.error e → e = Err.invalidInput) ∧
      (create_order st p now = Except.error Err.invalidInput ↔
        (jvFalsy (p.restaurant_id.getD Jv.null) = true ∨
         pyInt? (p.restaurant_id.getD Jv.null) = none ∨
         p.total = none ∨ (∃ t, p.total = some t ∧ pyFloat? t = none))) :=
  ⟨fun _ h => create_order_error_only_invalid h, create_order_error_iff st p now⟩

/-- View of `wOrder1` as returned by a poll. -/
def wView1 : OrderView :=
  { id := 1, table := none, items := Jv.arr [], total := 0, created_at := 0 }

/-- View of `wOrder2` as returned by a poll. -/
def wView2 : OrderView :=
  { id := 2, table := some "5", items := Jv.arr [], total := 320, created_at := 0 }

/-- C2 counterexample: with `limit = -1` the poll returns both pending
orders — more than "up to limit" allows — because SQLite treats a negative
`LIMIT` as unbounded. -/
theorem poll_negative_limit_returns_all :
    poll_orders wSt "tokA" (-1) 9 true =
      Except.ok ([wView1, wView2],
        { restaurants := [wRest],
          orders := [{ wOrder1 with printed_at := some 9 },
                     { wOrder2 with printed_at := some 9 }],
          nextRestaurantId := 2, nextOrderId := 3 }) ∧
      ¬((2 : Int) ≤ -1) := by
  exact ⟨rfl, by decide⟩

/-- C2 as amended (for nonnegative limits): a successful poll returns
exactly the first `limit` of the restaurant's unprinted orders in ascending
id order — never another restaurant's order, never a printed one. -/
theorem poll_returns_pending_prefix {st : St} {tok : String} {lim : Int}
    {now : Nat} {ck : Bool} {vs : List OrderView} {st' : St} {r : Restaurant}
    (hwf : WF st) (hlim : 0 ≤ lim)
    (hr : st.restaurants.find? (fun x => x.token == tok) = some r)
    (h : poll_orders st tok lim now ck = Except.ok (vs, st')) :
    vs.map OrderView.id =
        ((st.orders.filter (isPendingFor r.id)).map Order.id).take lim.toNat ∧
      vs.length = min lim.toNat (st.orders.filter (isPendingFor r.id)).length ∧
      (vs.map OrderView.id).Pairwise (· < ·) ∧
      ∀ v ∈ vs, ∃ o ∈ st.orders,
        o.id = v.id ∧ o.restaurant_id = (r.id : Int) ∧ o.printed_at = none := by
  rcases poll_ok_state h with ⟨r', hr', hmap, _, _⟩
  rw [hr'] at hr
  have hrr : r' = r := Option.some.inj hr
  rw [hrr] at hmap
  have hsel : pollSelect st r.id lim =
      (st.orders.filter (isPendingFor r.id)).take lim.toNat := by
    rw [pollSelect_eq_take hwf]
    unfold sqlLimit
    rw [if_neg (by omega)]
  constructor
  · rw [hmap, hsel, List.map_take]
  refine ⟨?_, ?_, ?_⟩
  · have := congrArg List.length hmap
    simp only [List.length_map] at this
    rw [this, hsel, List.length_take]
  · rw [hmap]
    exact List.Pairwise.map _ (fun _ _ hab => hab)
      (pollSelect_pairwise hwf r.id lim)
  · intro v hv
    have hvid : v.id ∈ (pollSelect st r.id lim).map Order.id := by
      rw [← hmap]
      exact List.mem_map_of_mem OrderView.id hv
    rcases List.mem_map.mp hvid with ⟨o, ho, hoid⟩
    rcases pollSelect_subset _ _ o ho with ⟨homem, hpend⟩
    rcases isPendingFor_iff.mp hpend with ⟨hrid, hnone⟩
    exact ⟨o, homem, hoid, hrid, hnone⟩

/-- Witness for the amended C2 at the two-order store with limit 5. -/
theorem poll_returns_pending_prefix_witness :
    [wView1, wView2].map OrderView.id =
        ((wSt.orders.filter (isPendingFor wRest.id)).map Order.id).take (5 : Int).toNat ∧
      [wView1, wView2].length =
        min (5 : Int).toNat (wSt.orders.filter (isPendingFor wRest.id)).length ∧
      ([wView1, wView2].map OrderView.id).Pairwise (· < ·) ∧
      ∀ v ∈ [wView1, wView2], ∃ o ∈ wSt.orders,
        o.id = v.id ∧ o.restaurant_id = (wRest.id : Int) ∧ o.printed_at = none :=
  poll_returns_pending_prefix (by decide) (by decide)
    (rfl : wSt.restaurants.find? (fun x => x.token == "tokA") = some wRest)
    (rfl : poll_orders wSt "tokA" 5 9 true = Except.ok ([wView1, wView2],
      { restaurants := [wRest],
        orders := [{ wOrder1 with printed_at := some 9 },
                   { wOrder2 with printed_at := some 9 }],
        nextRestaurantId := 2, nextOrderId := 3 }))

/-- C10: frame property of a successful poll.  Restaurants and counters are
untouched; the order table keeps its length and order; a row in the
response flips `printed_at` from null to the batch timestamp while every
other field is unchanged; every row not in the response is entirely
unchanged. -/
theorem poll_frame {st : St} {tok : String} {lim : Int} {now : Nat}
    {ck : Bool} {vs : List OrderView} {st' : St} (hwf : WF st)
    (h : poll_orders st tok lim now ck = Except.ok (vs, st')) :
    st'.restaurants = st.restaurants ∧
      st'.nextRestaurantId = st.nextRestaurantId ∧
      st'.nextOrderId = st.nextOrderId ∧
      List.Forall₂ (fun o o' =>
        o'.id = o.id ∧ o'.restaurant_id = o.restaurant_id ∧ o'.table = o.table ∧
          o'.items_json = o.items_json ∧ o'.total = o.total ∧
          o'.created_at = o.created_at ∧
          ((o.id ∈ vs.map OrderView.id ∧ o.printed_at = none ∧
              o'.printed_at = some now) ∨
           (o.id ∉ vs.map OrderView.id ∧ o'.printed_at = o.printed_at)))
        st.orders st'.orders := by
  rcases poll_ok_spec h with ⟨r, hf, hv, hcase⟩
  have hmap : vs.map OrderView.id = (pollSelect st r.id lim).map Order.id :=
    viewsOf_map_id hv
  rcases hcase with ⟨hnil, rfl⟩ | ⟨hne, _, rfl⟩
  · refine ⟨rfl, rfl, rfl, ?_⟩
    rw [List.forall₂_same]
    intro o ho
    refine ⟨rfl, rfl, rfl, rfl, rfl, rfl, Or.inr ⟨?_, rfl⟩⟩
    rw [hmap, hnil]
    simp
  · refine ⟨rfl, rfl, rfl, ?_⟩
    unfold markPrinted
    rw [List.forall₂_map_right_iff, List.forall₂_same]
    intro o ho
    by_cases hc : o.id ∈ (pollSelect st r.id lim).map Order.id
    · have hcb : ((pollSelect st r.id lim).map Order.id).contains o.id = true := by
        simpa using hc
      rw [if_pos hcb]
      refine ⟨rfl, rfl, rfl, rfl, rfl, rfl, Or.inl ⟨by rw [hmap]; exact hc, ?_, rfl⟩⟩
      rcases List.mem_map.mp hc with ⟨s, hs, hsid⟩
      rcases pollSelect_subset _ _ s hs with ⟨hsmem, hspend⟩
      have hso : s = o := pairwise_id_unique hwf.1 s hsmem o ho hsid
      rw [← hso]
      exact (isPendingFor_iff.mp hspend).2
    · have hcb : ¬(((pollSelect st r.id lim).map Order.id).contains o.id = true) := by
        simpa using hc
      rw [if_neg hcb]
      exact ⟨rfl, rfl, rfl, rfl, rfl, rfl, Or.inr ⟨by rw [hmap]; exact hc, rfl⟩⟩

/-- Witness for C10 at the two-order store. -/
theorem poll_frame_witness :
    [wRest] = wSt.restaurants ∧ (2 : Nat) = wSt.nextRestaurantId ∧
      (3 : Nat) = wSt.nextOrderId ∧
      List.Forall₂ (fun o o' =>
        o'.id = o.id ∧ o'.restaurant_id = o.restaurant_id ∧ o'.table = o.table ∧
          o'.items_json = o.items_json ∧ o'.total = o.total ∧
          o'.created_at = o.created_at ∧
          ((o.id ∈ [wView1, wView2].map OrderView.id ∧ o.printed_at = none ∧
              o'.printed_at = some 9) ∨
           (o.id ∉ [wView1, wView2].map OrderView.id ∧ o'.printed_at = o.printed_at)))
        wSt.orders
        [{ wOrder1 with printed_at := some 9 }, { wOrder2 with printed_at := some 9 }] :=
  poll_frame (by decide)
    (rfl : poll_orders wSt "tokA" 5 9 true = Except.ok ([wView1, wView2],
      { restaurants := [wRest],
        orders := [{ wOrder1 with printed_at := some 9 },
                   { wOrder2 with printed_at := some 9 }],
        nextRestaurantId := 2, nextOrderId := 3 }))

/-! ### Round-trip of the items serialization: numbers -/

theorem isDigit_ofNat48 {d : Nat} (h : d < 10) :
    (Char.ofNat (48 + d)).isDigit = true := by
  interval_cases d <;> decide

theorem digitVal_ofNat48 {d : Nat} (h : d < 10) :
    digitVal (Char.ofNat (48 + d)) = d := by
  interval_cases d <;> decide

theorem natDigitsAux_eq (f f' n : Nat) (hf : n < f) (hf' : n < f') :
    natDigitsAux f n = natDigitsAux f' n := by
  induction f generalizing f' n with
  | zero => omega
  | succ f ih =>
    cases f' with
    | zero => omega
    | succ f' =>
      show (if n < 10 then _ else _) = (if n < 10 then _ else _)
      by_cases h : n < 10
      · rw [if_pos h, if_pos h]
      · rw [if_neg h, if_neg h]
        have hdiv : n / 10 < n := Nat.div_lt_self (by omega) (by omega)
        rw [ih f' (n / 10) (by omega) (by omega)]

theorem natDigits_unfold (n : Nat) :
    natDigits n = if n < 10 then [Char.ofNat (48 + n)]
      else natDigits (n / 10) ++ [Char.ofNat (48 + n % 10)] := by
  show natDigitsAux (n + 1) n = _
  by_cases h : n < 10
  · rw [if_pos h]
    show (if n < 10 then _ else _) = _
    rw [if_pos h]
  · rw [if_neg h]
    show (if n < 10 then _ else _) = _
    rw [if_neg h]
    have hdiv : n / 10 < n := Nat.div_lt_self (by omega) (by omega)
    rw [natDigitsAux_eq n (n / 10 + 1) (n / 10) (by omega) (by omega)]
    rfl

theorem natDigits_all_digits (n : Nat) : ∀ c ∈ natDigits n, c.isDigit = true := by
  induction n using Nat.strong_induction_on with
  | _ n ih =>
    rw [natDigits_unfold]
    split
    · rename_i h
      intro c hc
      rcases List.mem_singleton.mp hc with rfl
      exact isDigit_ofNat48 h
    · rename_i h
      intro c hc
      rcases List.mem_append.mp hc with h1 | h2
      · exact ih (n / 10) (Nat.div_lt_self (by omega) (by omega)) c h1
      · rcases List.mem_singleton.mp h2 with rfl
        exact isDigit_ofNat48 (Nat.mod_lt _ (by omega))

theorem natDigits_head (n : Nat) :
    ∃ d cs, d < 10 ∧ natDigits n = Char.ofNat (48 + d) :: cs := by
  induction n using Nat.strong_induction_on with
  | _ n ih =>
    rw [natDigits_unfold]
    split
    · rename_i h
      exact ⟨n, [], h, rfl⟩
    · rename_i h
      rcases ih (n / 10) (Nat.div_lt_self (by omega) (by omega)) with ⟨d, cs, hd, hds⟩
      exact ⟨d, cs ++ [Char.ofNat (48 + n % 10)], hd, by rw [hds]; rfl⟩

theorem digitsVal_append_one (l : List Char) (c : Char) :
    digitsVal (l ++ [c]) = digitsVal l * 10 + digitVal c := by
  unfold digitsVal
  rw [List.foldl_append]
  rfl

theorem digitsVal_natDigits (n : Nat) : digitsVal (natDigits n) = n := by
  induction n using Nat.strong_induction_on with
  | _ n ih =>
    rw [natDigits_unfold]
    split
    · rename_i h
      show digitsVal ([] ++ [Char.ofNat (48 + n)]) = n
      rw [digitsVal_append_one]
      unfold digitsVal
      simp [digitVal_ofNat48 h]
    · rename_i h
      rw [digitsVal_append_one, ih (n / 10) (Nat.div_lt_self (by omega) (by omega)),
        digitVal_ofNat48 (Nat.mod_lt _ (by omega))]
      omega

/-- Condition on the tail after a serialized token: the head, if any, must
not satisfy `p` (so a greedy parse stops exactly at the boundary). -/
def headNot (p : Char → Bool) : List Char → Bool
| [] => true
| c :: _ => !(p c)

theorem takeWhile_append_all {p : Char → Bool} :
    ∀ (l r : List Char), (∀ c ∈ l, p c = true) → headNot p r = true →
      (l ++ r).takeWhile p = l := by
  intro l
  induction l with
  | nil =>
    intro r _ hr
    cases r with
    | nil => rfl
    | cons c cs =>
      show (c :: cs).takeWhile p = []
      have hpc : p c = false := by
        have h2 := hr
        unfold headNot at h2
        simpa using h2
      unfold List.takeWhile
      rw [hpc]
  | cons c cs ih =>
    intro r hl hr
    show ((c :: cs) ++ r).takeWhile p = c :: cs
    rw [List.cons_append]
    unfold List.takeWhile
    rw [hl c (List.mem_cons_self _ _), ih r (fun x hx => hl x (List.mem_cons_of_mem _ hx)) hr]

theorem dropWhile_append_all {p : Char → Bool} :
    ∀ (l r : List Char), (∀ c ∈ l, p c = true) → headNot p r = true →
      (l ++ r).dropWhile p = r := by
  intro l
  induction l with
  | nil =>
    intro r _ hr
    cases r with
    | nil => rfl
    | cons c cs =>
      show (c :: cs).dropWhile p = c :: cs
      have hpc : p c = false := by
        have h2 := hr
        unfold headNot at h2
        simpa using h2
      unfold List.dropWhile
      rw [hpc]
  | cons c cs ih =>
    intro r hl hr
    show ((c :: cs) ++ r).dropWhile p = r
    rw [List.cons_append]
    unfold List.dropWhile
    rw [hl c (List.mem_cons_self _ _)]
    exact ih r (fun x hx => hl x (List.mem_cons_of_mem _ hx)) hr

theorem parseNat?_natDigits (n : Nat) (rest : List Char)
    (hrest : headNot Char.isDigit rest = true) :
    parseNat? (natDigits n ++ rest) = some (n, rest) := by
  unfold parseNat?
  simp only []
  rw [takeWhile_append_all _ _ (natDigits_all_digits n) hrest,
    dropWhile_append_all _ _ (natDigits_all_digits n) hrest]
  rcases natDigits_head n with ⟨d, cs, _, hds⟩
  rw [if_neg (by rw [hds]; simp)]
  rw [digitsVal_natDigits]

theorem parseInt?_intChars (n : Int) (rest : List Char)
    (hrest : headNot Char.isDigit rest = true) :
    parseInt? (intChars n ++ rest) = some (n, rest) := by
  unfold intChars
  by_cases hn : n < 0
  · rw [if_pos hn]
    show parseInt? ('-' :: (natDigits n.natAbs ++ rest)) = some (n, rest)
    unfold parseInt?
    simp only [if_true]
    rw [parseNat?_natDigits _ _ hrest]
    simp only [Option.map_some', Option.some.injEq, Prod.mk.injEq]
    exact ⟨by omega, trivial⟩
  · rw [if_neg hn]
    rcases natDigits_head n.natAbs with ⟨d, cs, hd, hds⟩
    rw [hds]
    show parseInt? (Char.ofNat (48 + d) :: (cs ++ rest)) = some (n, rest)
    unfold parseInt?
    simp only []
    rw [if_neg (show ¬Char.ofNat (48 + d) = '-' by interval_cases d <;> decide)]
    rw [show Char.ofNat (48 + d) :: (cs ++ rest) = (Char.ofNat (48 + d) :: cs) ++ rest by rfl]
    rw [← hds, parseNat?_natDigits _ _ hrest]
    simp only [Option.map_some', Option.some.injEq, Prod.mk.injEq]
    exact ⟨by omega, trivial⟩

/-! ### Round-trip of the items serialization: strings -/

theorem hexVal?_hexChar {k : Nat} (h : k < 16) : hexVal? (hexChar k) = some k := by
  interval_cases k <;> decide

theorem parseStrBody_shortEsc {e c : Char} (he : ¬e = 'u')
    (hd : escDecode? e = some c) (X : List Char) {res : List Char × List Char}
    (hres : parseStrBody X = some res) :
    parseStrBody ('\\' :: e :: X) = some (c :: res.1, res.2) := by
  unfold parseStrBody
  rw [if_neg (by decide), if_pos rfl]
  simp only []
  rw [if_neg he, hd]
  simp only []
  rw [hres]
  rfl

theorem parseStrBody_uEsc {t : Nat} (ht : t < 32) (X : List Char)
    {res : List Char × List Char} (hres : parseStrBody X = some res) :
    parseStrBody
        ('\\' :: 'u' :: '0' :: '0' :: hexChar (t / 16) :: hexChar (t % 16) :: X) =
      some (Char.ofNat t :: res.1, res.2) := by
  unfold parseStrBody
  rw [if_neg (by decide), if_pos rfl]
  simp only [if_true]
  rw [show hexVal? '0' = some 0 from rfl,
    hexVal?_hexChar (show t / 16 < 16 by omega),
    hexVal?_hexChar (show t % 16 < 16 by omega)]
  simp only []
  rw [hres]
  simp only [Option.map_some', Option.some.injEq, Prod.mk.injEq]
  refine ⟨?_, trivial⟩
  rw [show ((0 * 16 + 0) * 16 + t / 16) * 16 + t % 16 = t by omega]

theorem parseStrBody_escape :
    ∀ (l rest : List Char),
      parseStrBody (l.flatMap escChar ++ '"' :: rest) = some (l, rest) := by
  intro l
  induction l with
  | nil =>
    intro rest
    show parseStrBody ('"' :: rest) = some ([], rest)
    unfold parseStrBody
    rw [if_pos rfl]
  | cons c cs ih =>
    intro rest
    rw [List.flatMap_cons, List.append_assoc]
    unfold escChar
    by_cases h1 : c = '"'
    · rw [if_pos h1, h1]
      exact parseStrBody_shortEsc (by decide) (show escDecode? '"' = some '"' from rfl) _ (ih rest)
    rw [if_neg h1]
    by_cases h2 : c = '\\'
    · rw [if_pos h2, h2]
      exact parseStrBody_shortEsc (by decide) (show escDecode? '\\' = some '\\' from rfl) _ (ih rest)
    rw [if_neg h2]
    by_cases h3 : c = Char.ofNat 8
    · rw [if_pos h3, h3]
      exact parseStrBody_shortEsc (by decide) (show escDecode? 'b' = some (Char.ofNat 8) from rfl) _ (ih rest)
    rw [if_neg h3]
    by_cases h4 : c = Char.ofNat 9
    · rw [if_pos h4, h4]
      exact parseStrBody_shortEsc (by decide) (show escDecode? 't' = some (Char.ofNat 9) from rfl) _ (ih rest)
    rw [if_neg h4]
    by_cases h5 : c = Char.ofNat 10
    · rw [if_pos h5, h5]
      exact parseStrBody_shortEsc (by decide) (show escDecode? 'n' = some (Char.ofNat 10) from rfl) _ (ih rest)
    rw [if_neg h5]
    by_cases h6 : c = Char.ofNat 12
    · rw [if_pos h6, h6]
      exact parseStrBody_shortEsc (by decide) (show escDecode? 'f' = some (Char.ofNat 12) from rfl) _ (ih rest)
    rw [if_neg h6]
    by_cases h7 : c = Char.ofNat 13
    · rw [if_pos h7, h7]
      exact parseStrBody_shortEsc (by decide) (show escDecode? 'r' = some (Char.ofNat 13) from rfl) _ (ih rest)
    rw [if_neg h7]
    by_cases h8 : c.toNat < 32
    · rw [if_pos h8]
      show parseStrBody
          ('\\' :: 'u' :: '0' :: '0' :: hexChar (c.toNat / 16) :: hexChar (c.toNat % 16)
            :: (cs.flatMap escChar ++ '"' :: rest)) = some (c :: cs, rest)
      rw [parseStrBody_uEsc h8 _ (ih rest), Char.ofNat_toNat]
    · rw [if_neg h8]
      show parseStrBody (c :: (cs.flatMap escChar ++ '"' :: rest)) = some (c :: cs, rest)
      unfold parseStrBody
      rw [if_neg h1, if_neg h2, ih rest]
      rfl

/-! ### Round-trip of the items serialization: values -/

mutual
/-- Parser fuel sufficient for a value (one unit per nesting step). -/
def jvFuel : Jv → Nat
| Jv.null => 1
| Jv.bool _ => 1
| Jv.num _ => 1
| Jv.str _ => 1
| Jv.arr es => 1 + elemsFuel es
| Jv.obj fs => 1 + fieldsFuel fs

/-- Parser fuel sufficient for an array's element list. -/
def elemsFuel : List Jv → Nat
| [] => 0
| v :: vs => 1 + jvFuel v + elemsFuel vs

/-- Parser fuel sufficient for an object's field list. -/
def fieldsFuel : List (String × Jv) → Nat
| [] => 0
| (_, v) :: fs => 1 + jvFuel v + fieldsFuel fs
end

theorem skipWs_cons_not {c : Char} (cs : List Char) (h : isWs c = false) :
    skipWs (c :: cs) = c :: cs := by
  show (if isWs c = true then skipWs cs else c :: cs) = c :: cs
  rw [h]
  simp

theorem skipWs_cons_space (cs : List Char) : skipWs (' ' :: cs) = skipWs cs := rfl

theorem parseVal_cons_space (f : Nat) (X : List Char) :
    parseVal f (' ' :: X) = parseVal f X := by
  cases f with
  | zero => rfl
  | succ f' =>
    simp only [parseVal]
    rw [skipWs_cons_space]

/-- Every serialized value starts with a non-whitespace character other
than a closing bracket. -/
theorem dumpChars_head (v : Jv) :
    ∃ c cs, dumpChars v = c :: cs ∧ isWs c = false ∧ ¬c = ']' := by
  cases v with
  | null => exact ⟨'n', _, rfl, by decide, by decide⟩
  | bool b => cases b with
    | true => exact ⟨'t', _, rfl, by decide, by decide⟩
    | false => exact ⟨'f', _, rfl, by decide, by decide⟩
  | num n =>
    show ∃ c cs, intChars n = c :: cs ∧ _
    unfold intChars
    by_cases hn : n < 0
    · rw [if_pos hn]
      exact ⟨'-', _, rfl, by decide, by decide⟩
    · rw [if_neg hn]
      rcases natDigits_head n.natAbs with ⟨d, cs, hd, hds⟩
      exact ⟨Char.ofNat (48 + d), cs, hds,
        by interval_cases d <;> decide, by interval_cases d <;> decide⟩
  | str s => exact ⟨'"', _, rfl, by decide, by decide⟩
  | arr es => exact ⟨'[', _, rfl, by decide, by decide⟩
  | obj fs => exact ⟨Char.ofNat 123, _, rfl, by decide, by decide⟩

theorem jvFuel_pos (v : Jv) : 1 ≤ jvFuel v := by
  cases v <;> simp [jvFuel]

theorem strChars_append (s : String) (X : List Char) :
    strChars s ++ X = '"' :: (s.data.flatMap escChar ++ ('"' :: X)) := by
  unfold strChars
  simp [List.append_assoc]

theorem intChars_neg {n : Int} (hn : n < 0) :
    intChars n = '-' :: natDigits n.natAbs := by
  unfold intChars
  rw [if_pos hn]

theorem intChars_nonneg {n : Int} (hn : ¬n < 0) :
    intChars n = natDigits n.natAbs := by
  unfold intChars
  rw [if_neg hn]

theorem skipWs_sp {sp : List Char} (hsp : sp = [] ∨ sp = [' ']) {c : Char}
    (hc : isWs c = false) (X : List Char) : skipWs (sp ++ c :: X) = c :: X := by
  rcases hsp with rfl | rfl
  · rw [List.nil_append, skipWs_cons_not _ hc]
  · rw [show ([' '] ++ c :: X) = ' ' :: (c :: X) from rfl, skipWs_cons_space,
      skipWs_cons_not _ hc]

/-- What follows a field's serialized value inside a serialized object:
either the closing tail directly, or a comma-space and the remaining
fields. -/
def dumpObjTail (fs' : List (String × Jv)) (X : List Char) : List Char :=
  match fs' with
  | [] => X
  | f2 :: fs'' => ',' :: ' ' :: (dumpObj (f2 :: fs'') ++ X)

theorem dumpObj_cons_head (k : String) (v1 : Jv) (fs' : List (String × Jv))
    (X : List Char) :
    dumpObj ((k, v1) :: fs') ++ X =
      '"' :: (k.data.flatMap escChar ++ ('"' :: (':' :: ' ' ::
        (dumpChars v1 ++ dumpObjTail fs' X)))) := by
  cases fs' with
  | nil =>
    rw [show dumpObj [(k, v1)] = strChars k ++ ':' :: ' ' :: dumpChars v1 from rfl]
    rw [List.append_assoc, strChars_append]
    simp [dumpObjTail, List.append_assoc]
  | cons f2 fs'' =>
    rw [show dumpObj ((k, v1) :: f2 :: fs'') =
      strChars k ++ ':' :: ' ' :: dumpChars v1 ++ ',' :: ' ' :: dumpObj (f2 :: fs'') from rfl]
    rw [List.append_assoc, strChars_append]
    simp [dumpObjTail, List.append_assoc]

/-- What follows an element's serialized value inside a serialized array. -/
def dumpArrTail (es' : List Jv) (X : List Char) : List Char :=
  match es' with
  | [] => X
  | e2 :: es'' => ',' :: ' ' :: (dumpArr (e2 :: es'') ++ X)

theorem dumpArr_cons (e : Jv) (es' : List Jv) (X : List Char) :
    dumpArr (e :: es') ++ X = dumpChars e ++ dumpArrTail es' X := by
  cases es' with
  | nil => rfl
  | cons e2 es'' =>
    rw [show dumpArr (e :: e2 :: es'') =
      dumpChars e ++ ',' :: ' ' :: dumpArr (e2 :: es'') from rfl]
    simp [dumpArrTail, List.append_assoc]

theorem headNot_dumpArrTail (es' : List Jv) (rest : List Char) :
    headNot Char.isDigit (dumpArrTail es' (']' :: rest)) = true := by
  cases es' <;> rfl

theorem headNot_dumpObjTail (fs' : List (String × Jv)) (rest : List Char) :
    headNot Char.isDigit (dumpObjTail fs' (Char.ofNat 125 :: rest)) = true := by
  cases fs' <;> rfl

theorem parse_roundtrip_bundle : ∀ N : Nat,
    (∀ v : Jv, sizeOf v ≤ N → ∀ (f : Nat) (rest : List Char), jvFuel v ≤ f →
      headNot Char.isDigit rest = true →
      parseVal f (dumpChars v ++ rest) = some (v, rest)) ∧
    (∀ es : List Jv, sizeOf es ≤ N → ∀ (f : Nat) (sp : List Char),
      (sp = [] ∨ sp = [' ']) → ∀ rest : List Char, es ≠ [] → elemsFuel es ≤ f →
      parseElems f (sp ++ (dumpArr es ++ ']' :: rest)) = some (es, rest)) ∧
    (∀ fs : List (String × Jv), sizeOf fs ≤ N → ∀ (f : Nat) (sp : List Char),
      (sp = [] ∨ sp = [' ']) → ∀ rest : List Char, fs ≠ [] → fieldsFuel fs ≤ f →
      parseFields f (sp ++ (dumpObj fs ++ Char.ofNat 125 :: rest)) = some (fs, rest)) := by
  intro N
  induction N using Nat.strong_induction_on with
  | _ N ih =>
    refine ⟨?_, ?_, ?_⟩
    · intro v hsize f rest hf hrest
      cases f with
      | zero => exact absurd hf (by have := jvFuel_pos v; omega)
      | succ f' =>
        cases v with
        | null => rfl
        | bool b => cases b <;> rfl
        | str s =>
          obtain ⟨data⟩ := s
          rw [show dumpChars (Jv.str ⟨data⟩) = strChars ⟨data⟩ from rfl,
            strChars_append]
          show (parseStrBody (data.flatMap escChar ++ ('"' :: rest))).map
              (fun p => (Jv.str (String.mk p.1), p.2)) = some (Jv.str ⟨data⟩, rest)
          rw [parseStrBody_escape data rest]
          rfl
        | num n =>
          by_cases hn : n < 0
          · rw [show dumpChars (Jv.num n) = intChars n from rfl, intChars_neg hn]
            show (parseInt? ('-' :: (natDigits n.natAbs ++ rest))).map
                (fun p => (Jv.num p.1, p.2)) = some (Jv.num n, rest)
            rw [show ('-' :: (natDigits n.natAbs ++ rest)) =
              (('-' :: natDigits n.natAbs) ++ rest) from rfl]
            rw [← intChars_neg hn, parseInt?_intChars n rest hrest]
            rfl
          · rw [show dumpChars (Jv.num n) = intChars n from rfl, intChars_nonneg hn]
            rcases natDigits_head n.natAbs with ⟨d, ds, hd, hds⟩
            rw [hds]
            simp only [parseVal]
            rw [List.cons_append,
              skipWs_cons_not _ (by interval_cases d <;> decide)]
            simp only []
            rw [if_neg (show ¬Char.ofNat (48 + d) = 'n' by interval_cases d <;> decide),
              if_neg (show ¬Char.ofNat (48 + d) = 't' by interval_cases d <;> decide),
              if_neg (show ¬Char.ofNat (48 + d) = 'f' by interval_cases d <;> decide),
              if_neg (show ¬Char.ofNat (48 + d) = '"' by interval_cases d <;> decide),
              if_neg (show ¬Char.ofNat (48 + d) = '[' by interval_cases d <;> decide),
              if_neg (show ¬Char.ofNat (48 + d) = Char.ofNat 123 by
                interval_cases d <;> decide),
              if_pos (Or.inr (isDigit_ofNat48 hd))]
            rw [show (Char.ofNat (48 + d) :: (ds ++ rest)) =
              ((Char.ofNat (48 + d) :: ds) ++ rest) from rfl]
            rw [← hds, ← intChars_nonneg hn, parseInt?_intChars n rest hrest]
            rfl
        | arr es =>
          cases es with
          | nil => rfl
          | cons e es' =>
            have hfe : elemsFuel (e :: es') ≤ f' := by
              have h1 : jvFuel (Jv.arr (e :: es')) = 1 + elemsFuel (e :: es') := rfl
              omega
            have hlt : sizeOf (e :: es') < N := by
              have hs := hsize
              simp only [Jv.arr.sizeOf_spec] at hs
              omega
            rw [show dumpChars (Jv.arr (e :: es')) ++ rest =
              '[' :: (dumpArr (e :: es') ++ ']' :: rest) from by
                rw [show dumpChars (Jv.arr (e :: es')) =
                  '[' :: dumpArr (e :: es') ++ [']'] from rfl]
                simp [List.append_assoc]]
            simp only [parseVal]
            rw [skipWs_cons_not _ (by decide)]
            simp only []
            rw [if_neg (by decide), if_neg (by decide), if_neg (by decide),
              if_neg (by decide)]
            simp only [if_true]
            rcases dumpChars_head e with ⟨c0, cs0, hdc, hws0, hnb0⟩
            have hshape : dumpArr (e :: es') ++ ']' :: rest =
                c0 :: (cs0 ++ dumpArrTail es' (']' :: rest)) := by
              rw [dumpArr_cons, hdc, List.cons_append]
            rw [hshape, skipWs_cons_not _ hws0]
            simp only []
            rw [if_neg hnb0, ← hshape]
            have hrec := (ih (sizeOf (e :: es')) hlt).2.1 (e :: es') le_rfl f'
              [] (Or.inl rfl) rest (by simp) hfe
            rw [List.nil_append] at hrec
            rw [hrec]
            rfl
        | obj fs =>
          cases fs with
          | nil => rfl
          | cons kv fs' =>
            have hff : fieldsFuel (kv :: fs') ≤ f' := by
              have h1 : jvFuel (Jv.obj (kv :: fs')) = 1 + fieldsFuel (kv :: fs') := rfl
              omega
            have hlt : sizeOf (kv :: fs') < N := by
              have hs := hsize
              simp only [Jv.obj.sizeOf_spec] at hs
              omega
            rw [show dumpChars (Jv.obj (kv :: fs')) ++ rest =
              Char.ofNat 123 :: (dumpObj (kv :: fs') ++ Char.ofNat 125 :: rest) from by
                rw [show dumpChars (Jv.obj (kv :: fs')) =
                  Char.ofNat 123 :: dumpObj (kv :: fs') ++ [Char.ofNat 125] from rfl]
                simp [List.append_assoc]]
            simp only [parseVal]
            rw [skipWs_cons_not _ (by decide)]
            simp only []
            rw [if_neg (by decide), if_neg (by decide), if_neg (by decide),
              if_neg (by decide), if_neg (by decide)]
            simp only [if_true]
            obtain ⟨k, v1⟩ := kv
            have hshape : dumpObj ((k, v1) :: fs') ++ Char.ofNat 125 :: rest =
                '"' :: (k.data.flatMap escChar ++ ('"' :: (':' :: ' ' ::
                  (dumpChars v1 ++ dumpObjTail fs' (Char.ofNat 125 :: rest))))) :=
              dumpObj_cons_head k v1 fs' (Char.ofNat 125 :: rest)
            rw [hshape, skipWs_cons_not _ (by decide)]
            simp only []
            rw [if_neg (by decide), ← hshape]
            have hrec := (ih (sizeOf ((k, v1) :: fs')) hlt).2.2 ((k, v1) :: fs')
              le_rfl f' [] (Or.inl rfl) rest (by simp) hff
            rw [List.nil_append] at hrec
            rw [hrec]
            rfl
    · intro es hsize f sp hsp rest hne hf
      cases es with
      | nil => exact absurd rfl hne
      | cons e es' =>
        cases f with
        | zero =>
          exact absurd hf (by
            have h1 : elemsFuel (e :: es') = 1 + jvFuel e + elemsFuel es' := rfl
            omega)
        | succ f' =>
          have hfe : jvFuel e ≤ f' := by
            have h1 : elemsFuel (e :: es') = 1 + jvFuel e + elemsFuel es' := rfl
            omega
          have hlte : sizeOf e < N := by
            have hs := hsize
            simp only [List.cons.sizeOf_spec] at hs
            omega
          simp only [parseElems]
          have hval : parseVal f' (sp ++ (dumpArr (e :: es') ++ ']' :: rest)) =
              some (e, dumpArrTail es' (']' :: rest)) := by
            have hbody : parseVal f' (dumpArr (e :: es') ++ ']' :: rest) =
                some (e, dumpArrTail es' (']' :: rest)) := by
              rw [dumpArr_cons]
              exact (ih (sizeOf e) hlte).1 e le_rfl f' _ hfe
                (headNot_dumpArrTail es' rest)
            rcases hsp with rfl | rfl
            · rw [List.nil_append, hbody]
            · rw [show ([' '] ++ (dumpArr (e :: es') ++ ']' :: rest)) =
                ' ' :: (dumpArr (e :: es') ++ ']' :: rest) from rfl,
                parseVal_cons_space, hbody]
          rw [hval]
          simp only []
          cases es' with
          | nil =>
            show (match skipWs (']' :: rest) with
              | [] => none
              | d :: r' => if d = ']' then some ([e], r')
                  else if d = ',' then
                    match parseElems f' r' with
                    | none => none
                    | some (vs, r'') => some (e :: vs, r'')
                  else none) = some ([e], rest)
            rw [skipWs_cons_not _ (by decide)]
            simp
          | cons e2 es'' =>
            show (match skipWs (',' :: ' ' :: (dumpArr (e2 :: es'') ++ ']' :: rest)) with
              | [] => none
              | d :: r' => if d = ']' then some (e :: e2 :: es'', r')
                  else if d = ',' then
                    match parseElems f' r' with
                    | none => none
                    | some (vs, r'') => some (e :: vs, r'')
                  else none) = some (e :: e2 :: es'', rest)
            rw [skipWs_cons_not _ (by decide)]
            simp only []
            rw [if_neg (by decide)]
            simp only [if_true]
            have hfe2 : elemsFuel (e2 :: es'') ≤ f' := by
              have h1 : elemsFuel (e :: e2 :: es'') =
                1 + jvFuel e + elemsFuel (e2 :: es'') := rfl
              omega
            have hlt2 : sizeOf (e2 :: es'') < N := by
              have hs := hsize
              simp only [List.cons.sizeOf_spec] at hs ⊢
              omega
            rw [show (' ' :: (dumpArr (e2 :: es'') ++ ']' :: rest)) =
              [' '] ++ (dumpArr (e2 :: es'') ++ ']' :: rest) from rfl]
            rw [(ih (sizeOf (e2 :: es'')) hlt2).2.1 (e2 :: es'') le_rfl f'
              [' '] (Or.inr rfl) rest (by simp) hfe2]
    · intro fs hsize f sp hsp rest hne hf
      cases fs with
      | nil => exact absurd rfl hne
      | cons kv fs' =>
        obtain ⟨k, v1⟩ := kv
        cases f with
        | zero =>
          exact absurd hf (by
            have h1 : fieldsFuel ((k, v1) :: fs') = 1 + jvFuel v1 + fieldsFuel fs' := rfl
            omega)
        | succ f' =>
          have hfv : jvFuel v1 ≤ f' := by
            have h1 : fieldsFuel ((k, v1) :: fs') = 1 + jvFuel v1 + fieldsFuel fs' := rfl
            omega
          have hltv : sizeOf v1 < N := by
            have hs := hsize
            simp only [List.cons.sizeOf_spec, Prod.mk.sizeOf_spec] at hs
            omega
          simp only [parseFields]
          obtain ⟨data⟩ := k
          have hshape := dumpObj_cons_head ⟨data⟩ v1 fs' (Char.ofNat 125 :: rest)
          rw [hshape, skipWs_sp hsp (by decide)]
          simp only []
          simp only [if_true]
          rw [parseStrBody_escape data
            (':' :: ' ' :: (dumpChars v1 ++ dumpObjTail fs' (Char.ofNat 125 :: rest)))]
          simp only []
          rw [skipWs_cons_not _ (by decide)]
          simp only []
          simp only [if_true]
          rw [show (' ' :: (dumpChars v1 ++ dumpObjTail fs' (Char.ofNat 125 :: rest))) =
            [' '] ++ (dumpChars v1 ++ dumpObjTail fs' (Char.ofNat 125 :: rest)) from rfl]
          rw [show parseVal f'
              ([' '] ++ (dumpChars v1 ++ dumpObjTail fs' (Char.ofNat 125 :: rest))) =
            parseVal f' (dumpChars v1 ++ dumpObjTail fs' (Char.ofNat 125 :: rest)) from
              parseVal_cons_space f' _]
          rw [(ih (sizeOf v1) hltv).1 v1 le_rfl f' _ hfv (headNot_dumpObjTail fs' rest)]
          simp only []
          cases fs' with
          | nil =>
            show (match skipWs (Char.ofNat 125 :: rest) with
              | [] => none
              | e :: r3 => if e = Char.ofNat 125 then some ([(String.mk data, v1)], r3)
                  else if e = ',' then
                    match parseFields f' r3 with
                    | none => none
                    | some (fs2, r4) => some ((String.mk data, v1) :: fs2, r4)
                  else none) = some ([(⟨data⟩, v1)], rest)
            rw [skipWs_cons_not _ (by decide)]
            simp
          | cons f2 fs'' =>
            show (match skipWs (',' :: ' ' :: (dumpObj (f2 :: fs'') ++ Char.ofNat 125 :: rest)) with
              | [] => none
              | e :: r3 => if e = Char.ofNat 125 then
                    some ((String.mk data, v1) :: f2 :: fs'', r3)
                  else if e = ',' then
                    match parseFields f' r3 with
                    | none => none
                    | some (fs2, r4) => some ((String.mk data, v1) :: fs2, r4)
                  else none) = some ((⟨data⟩, v1) :: f2 :: fs'', rest)
            rw [skipWs_cons_not _ (by decide)]
            simp only []
            rw [if_neg (by decide)]
            simp only [if_true]
            have hff2 : fieldsFuel (f2 :: fs'') ≤ f' := by
              have h1 : fieldsFuel ((⟨data⟩, v1) :: f2 :: fs'') =
                1 + jvFuel v1 + fieldsFuel (f2 :: fs'') := rfl
              omega
            have hlt2 : sizeOf (f2 :: fs'') < N := by
              have hs := hsize
              simp only [List.cons.sizeOf_spec] at hs ⊢
              omega
            rw [show (' ' :: (dumpObj (f2 :: fs'') ++ Char.ofNat 125 :: rest)) =
              [' '] ++ (dumpObj (f2 :: fs'') ++ Char.ofNat 125 :: rest) from rfl]
            rw [(ih (sizeOf (f2 :: fs'')) hlt2).2.2 (f2 :: fs'') le_rfl f'
              [' '] (Or.inr rfl) rest (by simp) hff2]

/-- Parsing the serialization of a value, followed by any non-digit-headed
tail, recovers exactly the value, given enough fuel. -/
theorem parse_dump (v : Jv) (f : Nat) (rest : List Char) (hf : jvFuel v ≤ f)
    (hrest : headNot Char.isDigit rest = true) :
    parseVal f (dumpChars v ++ rest) = some (v, rest) :=
  (parse_roundtrip_bundle (sizeOf v)).1 v le_rfl f rest hf hrest

theorem fuel_le_length_bundle : ∀ N : Nat,
    (∀ v : Jv, sizeOf v ≤ N → jvFuel v ≤ (dumpChars v).length) ∧
    (∀ es : List Jv, sizeOf es ≤ N → es ≠ [] →
      elemsFuel es ≤ (dumpArr es).length + 1) ∧
    (∀ fs : List (String × Jv), sizeOf fs ≤ N → fs ≠ [] →
      fieldsFuel fs ≤ (dumpObj fs).length + 1) := by
  intro N
  induction N using Nat.strong_induction_on with
  | _ N ih =>
    refine ⟨?_, ?_, ?_⟩
    · intro v hsize
      cases v with
      | null => decide
      | bool b => cases b <;> decide
      | num n =>
        show jvFuel (Jv.num n) ≤ (intChars n).length
        by_cases hn : n < 0
        · rw [intChars_neg hn]
          simp [jvFuel]
        · rw [intChars_nonneg hn]
          rcases natDigits_head n.natAbs with ⟨d, ds, _, hds⟩
          rw [hds]
          simp [jvFuel]
      | str s =>
        show jvFuel (Jv.str s) ≤ (strChars s).length
        unfold strChars
        simp [jvFuel]
      | arr es =>
        cases es with
        | nil => decide
        | cons e es' =>
          have hlt : sizeOf (e :: es') < N := by
            have hs := hsize
            simp only [Jv.arr.sizeOf_spec] at hs
            omega
          have hB := (ih (sizeOf (e :: es')) hlt).2.1 (e :: es') le_rfl (by simp)
          have h1 : jvFuel (Jv.arr (e :: es')) = 1 + elemsFuel (e :: es') := rfl
          rw [h1, show dumpChars (Jv.arr (e :: es')) =
            '[' :: dumpArr (e :: es') ++ [']'] from rfl]
          simp only [List.length_append, List.length_cons, List.length_singleton]
          omega
      | obj fs =>
        cases fs with
        | nil => decide
        | cons kv fs' =>
          have hlt : sizeOf (kv :: fs') < N := by
            have hs := hsize
            simp only [Jv.obj.sizeOf_spec] at hs
            omega
          have hC := (ih (sizeOf (kv :: fs')) hlt).2.2 (kv :: fs') le_rfl (by simp)
          have h1 : jvFuel (Jv.obj (kv :: fs')) = 1 + fieldsFuel (kv :: fs') := rfl
          rw [h1, show dumpChars (Jv.obj (kv :: fs')) =
            Char.ofNat 123 :: dumpObj (kv :: fs') ++ [Char.ofNat 125] from rfl]
          simp only [List.length_append, List.length_cons, List.length_singleton]
          omega
    · intro es hsize hne
      cases es with
      | nil => exact absurd rfl hne
      | cons e es' =>
        have hlte : sizeOf e < N := by
          have hs := hsize
          simp only [List.cons.sizeOf_spec] at hs
          omega
        have hA := (ih (sizeOf e) hlte).1 e le_rfl
        have h1 : elemsFuel (e :: es') = 1 + jvFuel e + elemsFuel es' := rfl
        cases es' with
        | nil =>
          rw [h1, show dumpArr [e] = dumpChars e from rfl]
          have h2 : elemsFuel ([] : List Jv) = 0 := rfl
          omega
        | cons e2 es'' =>
          have hlt2 : sizeOf (e2 :: es'') < N := by
            have hs := hsize
            simp only [List.cons.sizeOf_spec] at hs ⊢
            omega
          have hB := (ih (sizeOf (e2 :: es'')) hlt2).2.1 (e2 :: es'') le_rfl (by simp)
          rw [h1, show dumpArr (e :: e2 :: es'') =
            dumpChars e ++ ',' :: ' ' :: dumpArr (e2 :: es'') from rfl]
          simp only [List.length_append, List.length_cons]
          omega
    · intro fs hsize hne
      cases fs with
      | nil => exact absurd rfl hne
      | cons kv fs' =>
        obtain ⟨k, v1⟩ := kv
        have hltv : sizeOf v1 < N := by
          have hs := hsize
          simp only [List.cons.sizeOf_spec, Prod.mk.sizeOf_spec] at hs
          omega
        have hA := (ih (sizeOf v1) hltv).1 v1 le_rfl
        have h1 : fieldsFuel ((k, v1) :: fs') = 1 + jvFuel v1 + fieldsFuel fs' := rfl
        cases fs' with
        | nil =>
          rw [h1, show dumpObj [(k, v1)] =
            strChars k ++ ':' :: ' ' :: dumpChars v1 from rfl]
          have h2 : fieldsFuel ([] : List (String × Jv)) = 0 := rfl
          simp only [List.length_append, List.length_cons]
          omega
        | cons f2 fs'' =>
          have hlt2 : sizeOf (f2 :: fs'') < N := by
            have hs := hsize
            simp only [List.cons.sizeOf_spec] at hs ⊢
            omega
          have hC := (ih (sizeOf (f2 :: fs'')) hlt2).2.2 (f2 :: fs'') le_rfl (by simp)
          rw [h1, show dumpObj ((k, v1) :: f2 :: fs'') =
            strChars k ++ ':' :: ' ' :: dumpChars v1 ++
              ',' :: ' ' :: dumpObj (f2 :: fs'') from rfl]
          simp only [List.length_append, List.length_cons]
          omega

/-- Fuel bound used by `loads`: a value never needs more fuel than the
length of its serialization. -/
theorem jvFuel_le_length_dumpChars (v : Jv) : jvFuel v ≤ (dumpChars v).length :=
  (fuel_le_length_bundle (sizeOf v)).1 v le_rfl

/-- Round trip at the store boundary: deserializing a stored items payload
recovers exactly the submitted structured value. -/
theorem loads_dumps (v : Jv) : loads (dumps v) = some v := by
  unfold loads dumps
  rw [show (String.mk (dumpChars v)).data = dumpChars v from rfl]
  have hfl : jvFuel v ≤ (dumpChars v).length + 1 := by
    have := jvFuel_le_length_dumpChars v
    omega
  have h := parse_dump v ((dumpChars v).length + 1) [] hfl rfl
  rw [List.append_nil] at h
  rw [h]
  rfl

theorem forall₂_exists_left {α β : Type} {R : α → β → Prop} :
    ∀ {l1 : List α} {l2 : List β}, List.Forall₂ R l1 l2 →
      ∀ b ∈ l2, ∃ a ∈ l1, R a b := by
  intro l1 l2 h
  induction h with
  | nil => intro b hb; exact absurd hb (List.not_mem_nil b)
  | cons hab _ ih =>
    intro b hb
    rcases List.mem_cons.mp hb with rfl | hb'
    · exact ⟨_, List.mem_cons_self _ _, hab⟩
    · rcases ih b hb' with ⟨a, ha, hr⟩
      exact ⟨a, List.mem_cons_of_mem _ ha, hr⟩

/-- C9 as amended: a valid submission followed immediately by a poll of the
same tenant whose limit covers the tenant's pending backlog returns the
submitted order exactly once, and its items deserialize to exactly the
submitted structured items value. -/
theorem submit_then_poll_roundtrip {st : St} {p : Payload} {now now' : Nat}
    {oid : Nat} {st1 : St} {tok : String} {r : Restaurant} {lim : Int}
    {ck : Bool} {vs : List OrderView} {st2 : St}
    (hwf : WF st)
    (hsub : create_order st p now = Except.ok (oid, st1))
    (hr : st1.restaurants.find? (fun x => x.token == tok) = some r)
    (hsame : pyInt? (p.restaurant_id.getD Jv.null) = some ((r.id : Int)))
    (hlim : ((st1.orders.filter (isPendingFor r.id)).length : Int) ≤ lim)
    (hpoll : poll_orders st1 tok lim now' ck = Except.ok (vs, st2)) :
    (vs.map OrderView.id).count oid = 1 ∧
      ∀ v ∈ vs, v.id = oid → v.items = p.items.getD (Jv.arr []) := by
  rcases create_order_ok_spec hsub with ⟨ridZ, tot, hrid, hoid, hst1⟩
  have hridr : ridZ = (r.id : Int) := by
    rw [hrid] at hsame
    exact Option.some.inj hsame
  have hwf1 : WF st1 := WF_create_order hwf hsub
  set newO : Order := { id := st.nextOrderId, restaurant_id := ridZ, table := p.table, items_json := dumps (p.items.getD (Jv.arr [])), total := tot, created_at := now, printed_at := none } with hnewO
  have hnew_mem : newO ∈ st1.orders := by
    rw [hst1]
    exact List.mem_append_right _ (List.mem_singleton.mpr rfl)
  have hnew_pend : isPendingFor r.id newO = true := by
    apply isPendingFor_iff.mpr
    exact ⟨by rw [hnewO, hridr], rfl⟩
  have hnew_filt : newO ∈ st1.orders.filter (isPendingFor r.id) :=
    List.mem_filter.mpr ⟨hnew_mem, hnew_pend⟩
  have hpend_ne : (st1.orders.filter (isPendingFor r.id)).length ≥ 1 :=
    List.length_pos.mpr (List.ne_nil_of_mem hnew_filt)
  have hsel : pollSelect st1 r.id lim = st1.orders.filter (isPendingFor r.id) := by
    rw [pollSelect_eq_take hwf1]
    unfold sqlLimit
    rw [if_neg (by omega)]
    exact List.take_of_length_le (by omega)
  rcases poll_ok_state hpoll with ⟨r', hr', hmap, _, _⟩
  rw [hr'] at hr
  have hrr : r' = r := Option.some.inj hr
  rw [hrr] at hmap
  have hoid_mem : oid ∈ vs.map OrderView.id := by
    rw [hmap, hsel]
    rw [hoid]
    exact List.mem_map_of_mem Order.id hnew_filt
  constructor
  · exact List.count_eq_one_of_mem (poll_resp_nodup hwf1 hpoll) hoid_mem
  · intro v hv hvid
    rcases poll_ok_spec hpoll with ⟨r'', hr'', hview, _⟩
    rw [hr'] at hr''
    have hrr2 : r'' = r := by
      rw [hrr] at hr''
      exact (Option.some.inj hr'').symm
    rw [hrr2] at hview
    have hf2 := viewsOf_forall₂ hview
    rcases forall₂_exists_left hf2 v hv with ⟨o, ho_sel, hov⟩
    have ho_filt : o ∈ st1.orders.filter (isPendingFor r.id) := by
      rw [← hsel]
      exact ho_sel
    have ho_mem : o ∈ st1.orders := List.mem_of_mem_filter ho_filt
    rcases viewOf_fields hov with ⟨hvid', _, _, _, hitems⟩
    have ho_eq : o = newO := by
      apply pairwise_id_unique hwf1.1 o ho_mem newO hnew_mem
      rw [← hvid', hvid, hoid]
    rw [ho_eq] at hitems
    have : loads (dumps (p.items.getD (Jv.arr []))) = some v.items := hitems
    rw [loads_dumps] at this
    exact (Option.some.inj this).symm

/-- Structured items payload of the example submission. -/
def wItems : Jv :=
  Jv.arr [Jv.obj [("qty", Jv.num 2), ("name", Jv.str "Latte"), ("price", Jv.num 120)],
          Jv.obj [("qty", Jv.num 1), ("name", Jv.str "Brownie"), ("price", Jv.num 80)]]

/-- The example submission payload for restaurant 1. -/
def pSub : Payload :=
  { restaurant_id := some (Jv.num 1), table := some (String.mk ['5']),
    items := some wItems, total := some (Jv.num 320) }

/-- Row created by submitting `pSub` at time 5 against `stOneA`. -/
def oSub : Order :=
  { id := 1, restaurant_id := 1, table := some (String.mk ['5']),
    items_json := dumps wItems, total := 320, created_at := 5, printed_at := none }

/-- Store after submitting `pSub` against `stOneA`. -/
def stAfterSub : St :=
  { restaurants := [{ id := 1, name := "A", token := "t1", created_at := 0 }],
    orders := [oSub], nextRestaurantId := 2, nextOrderId := 2 }

/-- C9 counterexample: the submitted order is NOT returned by the
immediately following poll when the poll's limit is 0, so the claim as
stated (submit-then-poll returns the order exactly once, with no constraint
relating the limit to the backlog) fails. -/
theorem submit_then_poll_zero_misses_order :
    create_order stOneA pSub 5 = Except.ok (1, stAfterSub) ∧
      poll_orders stAfterSub "t1" 0 6 true = Except.ok ([], stAfterSub) := by
  exact ⟨rfl, rfl⟩

/-- View of `oSub` as returned by a poll. -/
def vSub : OrderView :=
  { id := 1, table := some (String.mk ['5']), items := wItems, total := 320,
    created_at := 5 }

/-- Witness for the amended C9: with limit 5 the submitted order comes back
once and its items round-trip. -/
theorem submit_then_poll_roundtrip_witness :
    ([vSub].map OrderView.id).count 1 = 1 ∧
      ∀ v ∈ [vSub], v.id = 1 → v.items = pSub.items.getD (Jv.arr []) :=
  submit_then_poll_roundtrip (by decide)
    (rfl : create_order stOneA pSub 5 = Except.ok (1, stAfterSub))
    (rfl : stAfterSub.restaurants.find? (fun x => x.token == "t1") =
      some { id := 1, name := "A", token := "t1", created_at := 0 })
    (rfl : pyInt? (pSub.restaurant_id.getD Jv.null) =
      some (({ id := 1, name := "A", token := "t1", created_at := 0 } : Restaurant).id : Int))
    (by decide)
    (rfl : poll_orders stAfterSub "t1" 5 6 true = Except.ok ([vSub],
      { restaurants := [{ id := 1, name := "A", token := "t1", created_at := 0 }],
        orders := [{ oSub with printed_at := some 6 }],
        nextRestaurantId := 2, nextOrderId := 2 }))
